import Mathlib

set_option maxHeartbeats 1000000
set_option linter.unnecessarySeqFocus false

/- Shallow embedding of the rust-nbt codec (src/read.rs, src/write.rs, src/file.rs;
   src/lib.rs repeats the same definitions verbatim in one module).

   Representation choices:
   - byte sequences are lists of naturals (real inputs have entries < 256);
   - Rust strings (String, and the decoded name slices) are represented by their
     UTF-8 byte sequences, so string equality is byte equality;
   - machine integers are Int with explicit two's-complement reduction mod 2^w;
   - f32/f64 payloads are represented by their raw big-endian bit patterns, since
     byteorder's write_f32 / nom's be_f32 transport the bits unchanged;
   - std HashMap String NBTTag is represented by an association list together with
     the insert operation used by tuple_vector_to_hash_map (replace the value of an
     existing key in place, append a new key at the end).

   The nom 4 combinators used by read.rs operate on plain byte slices, so they are
   streaming parsers: every fixed-width reader (be_i8, u16!, i32!, i64!, be_f32,
   take!, tag!) returns Err::Incomplete when fewer bytes remain than it needs.
   A parse outcome is modelled by RRes:
   - ok rest val        nom Ok((rest, val))
   - err k              nom Err::Error with ErrorKind k (Err::Failure never arises
                        in this code, nothing uses return_error)
   - incomplete         nom Err::Incomplete (the payload Needed does not influence
                        control flow anywhere in this code and is omitted)
   - panicked           a Rust panic: read_tag_name and read_tag_string call
                        str::from_utf8(...).unwrap()
   - outOfFuel          an artifact of the fuel-indexed model of the recursive
                        grammar; it is proved unreachable for the fuel that the
                        top-level entry points use. -/

abbrev Bytes := List Nat

inductive ErrK where
  /-- Model of ErrorKind::Custom(0), raised by read_tag_known on an unknown type id. -/
  | custom0
  /-- Model of ErrorKind::ManyMN, raised by many_m_n! when fewer than m items parsed. -/
  | manyMN
  /-- Model of ErrorKind::ManyTill, raised by many_till! when the content parser errors. -/
  | manyTill
  /-- Model of ErrorKind::Tag, raised by tag!([0x00]) on a non-matching first byte. -/
  | tagK
  deriving DecidableEq

inductive RRes (α : Type) where
  | ok (rest : Bytes) (val : α)
  | err (k : ErrK)
  | incomplete
  | panicked
  | outOfFuel

/-- Sequencing of parse results, as done by nom's do_parse! chains: sub-parser
failures propagate unchanged to the caller of the combined parser. -/
def RRes.bind {α β : Type} : RRes α → (Bytes → α → RRes β) → RRes β
  | .ok rest val, k => k rest val
  | .err e, _ => .err e
  | .incomplete, _ => .incomplete
  | .panicked, _ => .panicked
  | .outOfFuel, _ => .outOfFuel

/-- Two's-complement reading of a w-bit pattern as a signed integer. -/
def toSigned (w : Nat) (n : Nat) : Int :=
  let m := n % 2 ^ w
  if m < 2 ^ (w - 1) then (m : Int) else (m : Int) - 2 ^ w

/-- Model of the cast `len as usize` applied to an i32 value (64-bit usize). -/
def asUsize (v : Int) : Nat := (v % (2 : Int) ^ 64).toNat

/-- Model of take!(1) followed by indexing the returned one-byte slice. -/
def take1P : Bytes → RRes Nat
  | [] => .incomplete
  | b :: r => .ok r b

/-- Model of u16!(Endianness::Big): two bytes, big-endian, unsigned. -/
def beU16P : Bytes → RRes Nat
  | a :: b :: r => .ok r (a * 256 + b)
  | _ => .incomplete

/-- Model of nom::be_i8. -/
def beI8P : Bytes → RRes Int
  | a :: r => .ok r (toSigned 8 a)
  | _ => .incomplete

/-- Model of i16!(Endianness::Big). -/
def beI16P : Bytes → RRes Int
  | a :: b :: r => .ok r (toSigned 16 (a * 256 + b))
  | _ => .incomplete

/-- Model of i32!(Endianness::Big). -/
def beI32P : Bytes → RRes Int
  | a :: b :: c :: d :: r => .ok r (toSigned 32 (((a * 256 + b) * 256 + c) * 256 + d))
  | _ => .incomplete

/-- Model of i64!(Endianness::Big). -/
def beI64P : Bytes → RRes Int
  | a :: b :: c :: d :: e :: f :: g :: h :: r =>
      .ok r (toSigned 64 (((((((a * 256 + b) * 256 + c) * 256 + d) * 256 + e) * 256 + f) * 256 + g) * 256 + h))
  | _ => .incomplete

/-- Model of nom's be_f32 as used through the f32! macro: four big-endian bytes,
read as the raw bit pattern of the float. -/
def beF32P : Bytes → RRes Nat
  | a :: b :: c :: d :: r => .ok r (((a * 256 + b) * 256 + c) * 256 + d)
  | _ => .incomplete

/-- Model of nom's be_f64 as used through the f64! macro. -/
def beF64P : Bytes → RRes Nat
  | a :: b :: c :: d :: e :: f :: g :: h :: r =>
      .ok r (((((((a * 256 + b) * 256 + c) * 256 + d) * 256 + e) * 256 + f) * 256 + g) * 256 + h)
  | _ => .incomplete

/-- Model of take!(n): n bytes, or Incomplete when fewer remain. -/
def takeP (n : Nat) (i : Bytes) : RRes Bytes :=
  if n ≤ i.length then .ok (i.drop n) (i.take n) else .incomplete

/-- Model of tag!([0x00]): consume a single zero byte. -/
def tag0P : Bytes → RRes Unit
  | [] => .incomplete
  | 0 :: r => .ok r ()
  | _ :: _ => .err .tagK

/-- Helper for the UTF-8 validator: a continuation byte 0x80..0xBF. -/
def utf8Cont (c : Nat) : Bool := decide (0x80 ≤ c ∧ c ≤ 0xBF)

/-- Model of the validation performed by str::from_utf8 (RFC 3629 UTF-8:
no overlong forms, no surrogates, code points at most U+10FFFF). -/
def utf8Valid : Bytes → Bool
  | [] => true
  | b :: rest =>
    if b ≤ 0x7F then utf8Valid rest
    else if b < 0xC2 then false
    else if b ≤ 0xDF then
      match rest with
      | c1 :: r => utf8Cont c1 && utf8Valid r
      | [] => false
    else if b ≤ 0xEF then
      match rest with
      | c1 :: c2 :: r =>
        (if b = 0xE0 then decide (0xA0 ≤ c1 ∧ c1 ≤ 0xBF)
         else if b = 0xED then decide (0x80 ≤ c1 ∧ c1 ≤ 0x9F)
         else utf8Cont c1) && (utf8Cont c2 && utf8Valid r)
      | _ => false
    else if b ≤ 0xF4 then
      match rest with
      | c1 :: c2 :: c3 :: r =>
        (if b = 0xF0 then decide (0x90 ≤ c1 ∧ c1 ≤ 0xBF)
         else if b = 0xF4 then decide (0x80 ≤ c1 ∧ c1 ≤ 0x8F)
         else utf8Cont c1) && (utf8Cont c2 && (utf8Cont c3 && utf8Valid r))
      | _ => false
    else false

/-- Model of read_tag_name (read.rs lines 24-30): u16 big-endian length, then that
many bytes; str::from_utf8(name).unwrap() panics on invalid UTF-8. The value is
the name as its UTF-8 byte sequence. -/
def readTagName (input : Bytes) : RRes Bytes :=
  (beU16P input).bind fun r1 len =>
  (takeP len r1).bind fun r2 name =>
  if utf8Valid name then .ok r2 name else .panicked

/-- Model of the NBTTag enum of src/lib.rs (lines 65-80). Float and Double carry
their raw bit patterns; String carries UTF-8 bytes; Compound carries the
association list that models the std HashMap contents. -/
inductive NBTTag where
  | TagEnd
  | TagByte (v : Int)
  | TagShort (v : Int)
  | TagInt (v : Int)
  | TagLong (v : Int)
  | TagFloat (bits : Nat)
  | TagDouble (bits : Nat)
  | TagByteArray (v : List Int)
  | TagString (s : Bytes)
  | TagList (v : List NBTTag)
  | TagCompound (m : List (Bytes × NBTTag))
  | TagIntArray (v : List Int)
  | TagLongArray (v : List Int)

/-- Model of the NBTFile struct (src/file.rs lines 9-13). -/
structure NBTFile where
  root_name : Bytes
  root : NBTTag

/-- Model of std HashMap::insert on the association-list representation: replace
the value of an existing key in place, otherwise append the new binding. -/
def hmInsert (m : List (Bytes × NBTTag)) (k : Bytes) (v : NBTTag) : List (Bytes × NBTTag) :=
  match m with
  | [] => [(k, v)]
  | (k1, v1) :: rest => if k1 = k then (k1, v) :: rest else (k1, v1) :: hmInsert rest k v

/-- Model of std HashMap lookup on the association-list representation. -/
def hmLookup (m : List (Bytes × NBTTag)) (k : Bytes) : Option NBTTag :=
  match m with
  | [] => none
  | (k1, v1) :: rest => if k1 = k then some v1 else hmLookup rest k

/-- Model of tuple_vector_to_hash_map (read.rs lines 168-176): fold the decoded
entry vector into the map with HashMap::insert. -/
def tupleVectorToHashMap (l : List (Bytes × NBTTag)) : List (Bytes × NBTTag) :=
  l.foldl (fun m p => hmInsert m p.1 p.2) []

/-- The value of the last entry carrying the given name in a decoded entry
vector, in stream order; none when the name does not occur. -/
def lastOcc (l : List (Bytes × NBTTag)) (k : Bytes) : Option NBTTag :=
  match l with
  | [] => none
  | p :: rest =>
    match lastOcc rest k with
    | some v => some v
    | none => if p.1 = k then some p.2 else none

/- Model of nom 4's many_m_n! macro. The loop parses up to n items; it stops
early when the sub-parser errors (err), returns Incomplete (subInc), or succeeds
without consuming input (zeroC, nom's infinite-loop guard; unreachable here since
every payload parser consumes at least one byte when it succeeds). Afterwards
the macro yields Err(Error(ManyMN)) when fewer than m items parsed and the loop
stopped on an error; Err::Incomplete when fewer than m items parsed otherwise
(nom falls back to Needed::Unknown); Err::Incomplete whenever the sub-parser
reported Incomplete, even with m items already parsed (streaming behavior); and
Ok at the position before the failed attempt in the remaining cases. -/

inductive MEnd (α : Type) where
  | reachedN (rest : Bytes) (acc : List α)
  | zeroC (rest : Bytes) (acc : List α)
  | subErr (rest : Bytes) (acc : List α)
  | subInc
  | subPanic
  | subOof

def manyMNLoop {α : Type} (sub : Bytes → RRes α) : Nat → Bytes → List α → MEnd α
  | 0, i, acc => .reachedN i acc
  | n + 1, i, acc =>
    match sub i with
    | .ok r v => if r.length = i.length then .zeroC i acc else manyMNLoop sub n r (acc ++ [v])
    | .err _ => .subErr i acc
    | .incomplete => .subInc
    | .panicked => .subPanic
    | .outOfFuel => .subOof

def manyMN {α : Type} (m n : Nat) (sub : Bytes → RRes α) (i : Bytes) : RRes (List α) :=
  match manyMNLoop sub n i [] with
  | .reachedN r acc => if acc.length < m then .incomplete else .ok r acc
  | .zeroC r acc => if acc.length < m then .incomplete else .ok r acc
  | .subErr r acc => if acc.length < m then .err .manyMN else .ok r acc
  | .subInc => .incomplete
  | .subPanic => .panicked
  | .subOof => .outOfFuel

/- Model of nom 4's many_till! macro, specialized to a till parser that needs at
most one byte (tag!([0x00])): try the till parser; on its error try the content
parser, pushing its result and looping; a content error yields
Err(Error(ManyTill)) (in nom's default error mode error_node_position! keeps
only the outer ErrorKind); content Incomplete propagates. The till parser
returns Incomplete only on empty input, where the content parser also returns
Incomplete, so propagating till's Incomplete directly is equivalent for this
grammar. The loop-count argument is an artifact of the model: the nom loop is
bounded only by consumption, and the count used at every call site is proved
sufficient (each iteration consumes at least one byte). -/
def manyTillLoop {α : Type} (content : Bytes → RRes α) (till : Bytes → RRes Unit) :
    Nat → Bytes → List α → RRes (List α)
  | 0, _, _ => .outOfFuel
  | lf + 1, i, acc =>
    match till i with
    | .ok r _ => .ok r acc
    | .err _ =>
      match content i with
      | .ok r v => if r.length = i.length then .err .manyTill else manyTillLoop content till lf r (acc ++ [v])
      | .err _ => .err .manyTill
      | .incomplete => .incomplete
      | .panicked => .panicked
      | .outOfFuel => .outOfFuel
    | .incomplete => .incomplete
    | .panicked => .panicked
    | .outOfFuel => .outOfFuel

/-- Model of read_tag_byte (read.rs lines 32-37). -/
def readTagByteP (i : Bytes) : RRes NBTTag :=
  (beI8P i).bind fun r v => .ok r (.TagByte v)

/-- Model of read_tag_short (read.rs lines 39-44). -/
def readTagShortP (i : Bytes) : RRes NBTTag :=
  (beI16P i).bind fun r v => .ok r (.TagShort v)

/-- Model of read_tag_int (read.rs lines 46-51). -/
def readTagIntP (i : Bytes) : RRes NBTTag :=
  (beI32P i).bind fun r v => .ok r (.TagInt v)

/-- Model of read_tag_long (read.rs lines 53-58). -/
def readTagLongP (i : Bytes) : RRes NBTTag :=
  (beI64P i).bind fun r v => .ok r (.TagLong v)

/-- Model of read_tag_float (read.rs lines 60-65). -/
def readTagFloatP (i : Bytes) : RRes NBTTag :=
  (beF32P i).bind fun r v => .ok r (.TagFloat v)

/-- Model of read_tag_double (read.rs lines 67-72). -/
def readTagDoubleP (i : Bytes) : RRes NBTTag :=
  (beF64P i).bind fun r v => .ok r (.TagDouble v)

/-- Model of read_tag_byte_array (read.rs lines 74-80): i32 big-endian count len,
then many_m_n!(1, len as usize, be_i8). -/
def readTagByteArrayP (i : Bytes) : RRes NBTTag :=
  (beI32P i).bind fun r len =>
  (manyMN 1 (asUsize len) beI8P r).bind fun r2 v => .ok r2 (.TagByteArray v)

/-- Model of read_tag_string (read.rs lines 82-88): u16 length, that many bytes,
str::from_utf8(val).unwrap() panics on invalid UTF-8. -/
def readTagStringP (i : Bytes) : RRes NBTTag :=
  (beU16P i).bind fun r1 len =>
  (takeP len r1).bind fun r2 val =>
  if utf8Valid val then .ok r2 (.TagString val) else .panicked

/-- Model of read_tag_int_array (read.rs lines 106-112). -/
def readTagIntArrayP (i : Bytes) : RRes NBTTag :=
  (beI32P i).bind fun r len =>
  (manyMN 1 (asUsize len) beI32P r).bind fun r2 v => .ok r2 (.TagIntArray v)

/-- Model of read_tag_long_array (read.rs lines 114-120). -/
def readTagLongArrayP (i : Bytes) : RRes NBTTag :=
  (beI32P i).bind fun r len =>
  (manyMN 1 (asUsize len) beI64P r).bind fun r2 v => .ok r2 (.TagLongArray v)

/-- Model of read_tag_known (read.rs lines 139-155) together with the recursive
parsers read_tag_list (lines 90-97) and read_tag_compound (lines 99-104), which
are inlined at their dispatch sites. The first argument is recursion fuel, an
artifact of the model: the Rust recursion is bounded by the input, and the fuel
used by the entry points is proved sufficient. A compound parses entries of the
read_tag shape (type byte, name, payload) until tag!([0x00]) matches. -/
def readTagKnown : Nat → Nat → Bytes → RRes NBTTag
  | 0, _, _ => .outOfFuel
  | _ + 1, 1, i => readTagByteP i
  | _ + 1, 2, i => readTagShortP i
  | _ + 1, 3, i => readTagIntP i
  | _ + 1, 4, i => readTagLongP i
  | _ + 1, 5, i => readTagFloatP i
  | _ + 1, 6, i => readTagDoubleP i
  | _ + 1, 7, i => readTagByteArrayP i
  | _ + 1, 8, i => readTagStringP i
  | g + 1, 9, i =>
    (take1P i).bind fun r1 et =>
    (beI32P r1).bind fun r2 len =>
    (manyMN 1 (asUsize len) (fun j => readTagKnown g et j) r2).bind fun r3 els =>
    .ok r3 (.TagList els)
  | g + 1, 10, i =>
    (manyTillLoop
      (fun j =>
        (take1P j).bind fun r1 tt =>
        (readTagName r1).bind fun r2 nm =>
        (readTagKnown g tt r2).bind fun r3 t => .ok r3 (nm, t))
      tag0P (i.length + 1) i []).bind fun r els =>
    .ok r (.TagCompound (tupleVectorToHashMap els))
  | _ + 1, 11, i => readTagIntArrayP i
  | _ + 1, 12, i => readTagLongArrayP i
  | _ + 1, _, _ => .err .custom0

/-- Model of read_tag (read.rs lines 122-129): one type byte, a name, then the
payload dispatched through read_tag_known. -/
def readTag (f : Nat) (i : Bytes) : RRes (Bytes × NBTTag) :=
  (take1P i).bind fun r1 tt =>
  (readTagName r1).bind fun r2 nm =>
  (readTagKnown f tt r2).bind fun r3 t => .ok r3 (nm, t)

/-- Model of file_from_tuple (read.rs lines 157-166): only a Compound payload
yields a file. -/
def fileFromTuple (nm : Bytes) (t : NBTTag) : Option NBTFile :=
  match t with
  | .TagCompound _ => some ⟨nm, t⟩
  | _ => none

/-- Model of read_nbt_file (read.rs lines 131-136). The fuel i.length + 3 is
proved sufficient for inputs of this length. -/
def readNbtFile (i : Bytes) : RRes (Option NBTFile) :=
  (readTag (i.length + 3) i).bind fun r root => .ok r (fileFromTuple root.1 root.2)

/-- Outcome of NBTFile::from_bytes: a file, an error string, or a panic raised
below it. -/
inductive FBRes where
  | ok (f : NBTFile)
  | err (s : String)
  | panicked

/-- Model of NBTFile::from_bytes (file.rs lines 50-62): any non-Ok parse result,
and an Ok result carrying no file, become the error string; leftover input bytes
are ignored. -/
def NBTFile.from_bytes (bytes : Bytes) : FBRes :=
  match readNbtFile bytes with
  | .ok _ (some f) => .ok f
  | .ok _ none => .err "File could not be read"
  | .err _ => .err "File could not be read"
  | .incomplete => .err "File could not be read"
  | .panicked => .panicked
  | .outOfFuel => .err "File could not be read"

/- ----------------------------------------------------------------------------
   The encoder, src/write.rs. byteorder's WriteBytesExt methods on a Vec never
   fail; they append the big-endian bytes of the value. -/

/-- Big-endian bytes of a 16-bit value. -/
def be16W (n : Nat) : Bytes := [n / 256 % 256, n % 256]

/-- Big-endian bytes of a 32-bit value. -/
def be32W (n : Nat) : Bytes := [n / 2 ^ 24 % 256, n / 2 ^ 16 % 256, n / 2 ^ 8 % 256, n % 256]

/-- Big-endian bytes of a 64-bit value. -/
def be64W (n : Nat) : Bytes :=
  [n / 2 ^ 56 % 256, n / 2 ^ 48 % 256, n / 2 ^ 40 % 256, n / 2 ^ 32 % 256,
   n / 2 ^ 24 % 256, n / 2 ^ 16 % 256, n / 2 ^ 8 % 256, n % 256]

/-- Model of write_i8: the two's-complement byte of the value. -/
def i8W (v : Int) : Bytes := [(v % 256).toNat]

/-- Model of write_i16::BigEndian. -/
def i16W (v : Int) : Bytes := be16W ((v % 2 ^ 16).toNat)

/-- Model of write_i32::BigEndian. -/
def i32W (v : Int) : Bytes := be32W ((v % 2 ^ 32).toNat)

/-- Model of write_i64::BigEndian. -/
def i64W (v : Int) : Bytes := be64W ((v % 2 ^ 64).toNat)

/-- Model of get_tag_id (write.rs lines 232-248): TagEnd falls to the default
arm and yields None. -/
def getTagId : NBTTag → Option Nat
  | .TagByte _ => some 1
  | .TagShort _ => some 2
  | .TagInt _ => some 3
  | .TagLong _ => some 4
  | .TagFloat _ => some 5
  | .TagDouble _ => some 6
  | .TagByteArray _ => some 7
  | .TagString _ => some 8
  | .TagList _ => some 9
  | .TagCompound _ => some 10
  | .TagIntArray _ => some 11
  | .TagLongArray _ => some 12
  | .TagEnd => none

/-- Model of write_tag_byte (write.rs lines 8-18). -/
def writeTagByte : NBTTag → Except String Bytes
  | .TagByte v => .ok (i8W v)
  | _ => .error "Tag is not of type TagByte"

/-- Model of write_tag_short (write.rs lines 20-30). -/
def writeTagShort : NBTTag → Except String Bytes
  | .TagShort v => .ok (i16W v)
  | _ => .error "Tag is not of type TagShort"

/-- Model of write_tag_int (write.rs lines 32-42). -/
def writeTagInt : NBTTag → Except String Bytes
  | .TagInt v => .ok (i32W v)
  | _ => .error "Tag is not of type TagInt"

/-- Model of write_tag_long (write.rs lines 44-54). -/
def writeTagLong : NBTTag → Except String Bytes
  | .TagLong v => .ok (i64W v)
  | _ => .error "Tag is not of type TagLong"

/-- Model of write_tag_float (write.rs lines 56-66): write_f32 emits the big-endian
bytes of the bit pattern. -/
def writeTagFloat : NBTTag → Except String Bytes
  | .TagFloat bits => .ok (be32W (bits % 2 ^ 32))
  | _ => .error "Tag is not of type TagFloat"

/-- Model of write_tag_double (write.rs lines 68-78). -/
def writeTagDouble : NBTTag → Except String Bytes
  | .TagDouble bits => .ok (be64W (bits % 2 ^ 64))
  | _ => .error "Tag is not of type TagDouble"

/-- Model of write_tag_byte_array (write.rs lines 80-94): the element count
written through write_i32 with the cast len as i32 (wrapping), then each element
through write_i8. -/
def writeTagByteArray : NBTTag → Except String Bytes
  | .TagByteArray v => .ok (i32W (v.length : Int) ++ (v.map i8W).flatten)
  | _ => .error "Tag is not of type TagByteArray"

/-- Model of write_tag_string (write.rs lines 96-108): u16 byte length (the cast
len as u16 wraps) then the UTF-8 bytes. -/
def writeTagString : NBTTag → Except String Bytes
  | .TagString s => .ok (be16W (s.length % 2 ^ 16) ++ s)
  | _ => .error "Tag is not of type TagString"

/-- Model of write_tag_int_array (write.rs lines 156-170). -/
def writeTagIntArray : NBTTag → Except String Bytes
  | .TagIntArray v => .ok (i32W (v.length : Int) ++ (v.map i32W).flatten)
  | _ => .error "Tag is not of type TagIntArray"

/-- Model of write_tag_long_array (write.rs lines 172-186). -/
def writeTagLongArray : NBTTag → Except String Bytes
  | .TagLongArray v => .ok (i32W (v.length : Int) ++ (v.map i64W).flatten)
  | _ => .error "Tag is not of type TagLongArray"

mutual

/-- Model of write_tag (write.rs lines 188-230). When write_id is set and
get_tag_id yields None no id byte is emitted; when write_name is set and a name
is supplied a zero length is written for an empty name, otherwise the byte
length cast to u16; then the variant-dispatched payload writer runs and its
bytes are appended. TagEnd reaches the default arm. -/
def writeTag (input : NBTTag) (write_id write_name : Bool) (name : Option Bytes) :
    Except String Bytes :=
  let out0 : Bytes := if write_id then (match getTagId input with | some tid => [tid] | none => []) else []
  let out1 : Bytes := out0 ++
    (if write_name then
      (match name with
       | some nv => (if nv.length = 0 then be16W 0 else be16W (nv.length % 2 ^ 16)) ++ nv
       | none => [])
     else [])
  match input with
  | .TagByte _ => (writeTagByte input).map (fun bs => out1 ++ bs)
  | .TagShort _ => (writeTagShort input).map (fun bs => out1 ++ bs)
  | .TagInt _ => (writeTagInt input).map (fun bs => out1 ++ bs)
  | .TagLong _ => (writeTagLong input).map (fun bs => out1 ++ bs)
  | .TagFloat _ => (writeTagFloat input).map (fun bs => out1 ++ bs)
  | .TagDouble _ => (writeTagDouble input).map (fun bs => out1 ++ bs)
  | .TagByteArray _ => (writeTagByteArray input).map (fun bs => out1 ++ bs)
  | .TagString _ => (writeTagString input).map (fun bs => out1 ++ bs)
  | .TagList tv => (writeTagList (.TagList tv)).map (fun bs => out1 ++ bs)
  | .TagCompound cm => (writeTagCompound (.TagCompound cm)).map (fun bs => out1 ++ bs)
  | .TagIntArray _ => (writeTagIntArray input).map (fun bs => out1 ++ bs)
  | .TagLongArray _ => (writeTagLongArray input).map (fun bs => out1 ++ bs)
  | .TagEnd => .error "Tag type not matched"
termination_by 2 * sizeOf input + 1

/-- Model of write_tag_list (write.rs lines 129-154). The source builds the
element-type byte, the i32 count and the encoded elements into its local buffer
but, unlike every other writer, never returns Ok(output): after the element loop
the if-let block ends and the function falls through to the type-mismatch error.
An element encoding error is returned directly. -/
def writeTagList (input : NBTTag) : Except String Bytes :=
  match input with
  | .TagList tag_value =>
    match tag_value with
    | [] => .error "Size of TagList is required to be bigger than 0"
    | hd :: tl =>
      match getTagId hd with
      | none => .error "Tag id not recognized"
      | some _ =>
        match writeListElems (hd :: tl) with
        | .error msg => .error msg
        | .ok _ => .error "Tag is not of type TagList"
  | _ => .error "Tag is not of type TagList"
termination_by 2 * sizeOf input

/-- The element loop of write_tag_list: each element written with
write_id=false, write_name=false, concatenated in order; the first error aborts. -/
def writeListElems : List NBTTag → Except String Bytes
  | [] => .ok []
  | t :: ts =>
    match writeTag t false false none with
    | .error msg => .error msg
    | .ok bs => (writeListElems ts).map (fun rest => bs ++ rest)
termination_by l => 2 * sizeOf l + 1

/-- Model of write_tag_compound (write.rs lines 110-127): each entry written with
write_id=true, write_name=true and its key as the name, then the terminator byte. -/
def writeTagCompound (input : NBTTag) : Except String Bytes :=
  match input with
  | .TagCompound entries =>
    match writeCompoundEntries entries with
    | .error msg => .error msg
    | .ok out => .ok (out ++ [0])
  | _ => .error "Tag is not of type TagCompound"
termination_by 2 * sizeOf input

/-- The entry loop of write_tag_compound, iterating the map entries in the order
of the association-list model. -/
def writeCompoundEntries : List (Bytes × NBTTag) → Except String Bytes
  | [] => .ok []
  | (k, t) :: es =>
    match writeTag t true true (some k) with
    | .error msg => .error msg
    | .ok bs => (writeCompoundEntries es).map (fun rest => bs ++ rest)
termination_by l => 2 * sizeOf l + 1

end

/-- Model of NBTFile::as_bytes (file.rs lines 83-86). -/
def NBTFile.as_bytes (f : NBTFile) : Except String Bytes :=
  writeTag f.root true true (some f.root_name)

/-- The name-emission step of write_tag (write.rs lines 197-207), as a function
of the name bytes alone: a big-endian u16 byte length (zero for the empty name,
otherwise the length cast to u16, which wraps mod 2^16) followed by the bytes. -/
def writeNameBytes (nv : Bytes) : Bytes :=
  (if nv.length = 0 then be16W 0 else be16W (nv.length % 2 ^ 16)) ++ nv

/- ----------------------------------------------------------------------------
   Properties of parsers used by the metatheorems below.  PExt sub states that a
   successful, erroring or panicking parse is unaffected by appending further
   input (only Incomplete results can change); PCons that a successful parse
   returns a rest no longer than its input; PRef that a second parser agrees
   with a first wherever the first does not run out of model fuel. -/

def PExt {α : Type} (P : Bytes → RRes α) : Prop :=
  ∀ i ys,
    (∀ r v, P i = .ok r v → P (i ++ ys) = .ok (r ++ ys) v) ∧
    (∀ k, P i = .err k → P (i ++ ys) = .err k) ∧
    (P i = .panicked → P (i ++ ys) = .panicked)

def PCons {α : Type} (P : Bytes → RRes α) : Prop :=
  ∀ i r v, P i = .ok r v → r.length ≤ i.length

def PNoOof {α : Type} (P : Bytes → RRes α) : Prop :=
  ∀ i, P i ≠ .outOfFuel

def PRef {α : Type} (P Q : Bytes → RRes α) : Prop :=
  ∀ i, P i ≠ .outOfFuel → Q i = P i

/- ----------------------------------------------------------------------------
   Theorems.  First a toolbox about RRes.bind and the primitive parsers. -/

@[simp] theorem RRes.bind_ok {α β : Type} (r : Bytes) (v : α) (k : Bytes → α → RRes β) :
    (RRes.ok r v).bind k = k r v := rfl

@[simp] theorem RRes.bind_err {α β : Type} (e : ErrK) (k : Bytes → α → RRes β) :
    (RRes.err e : RRes α).bind k = .err e := rfl

@[simp] theorem RRes.bind_incomplete {α β : Type} (k : Bytes → α → RRes β) :
    (RRes.incomplete : RRes α).bind k = .incomplete := rfl

@[simp] theorem RRes.bind_panicked {α β : Type} (k : Bytes → α → RRes β) :
    (RRes.panicked : RRes α).bind k = .panicked := rfl

@[simp] theorem RRes.bind_outOfFuel {α β : Type} (k : Bytes → α → RRes β) :
    (RRes.outOfFuel : RRes α).bind k = .outOfFuel := rfl

theorem bind_eq_ok {α β : Type} {x : RRes α} {k : Bytes → α → RRes β} {r : Bytes} {v : β}
    (h : x.bind k = .ok r v) : ∃ r1 v1, x = .ok r1 v1 ∧ k r1 v1 = .ok r v := by
  cases x with
  | ok r1 v1 => exact ⟨r1, v1, rfl, h⟩
  | err e => simp [RRes.bind] at h
  | incomplete => simp [RRes.bind] at h
  | panicked => simp [RRes.bind] at h
  | outOfFuel => simp [RRes.bind] at h

theorem bind_eq_err {α β : Type} {x : RRes α} {k : Bytes → α → RRes β} {e : ErrK}
    (h : x.bind k = .err e) :
    x = .err e ∨ ∃ r1 v1, x = .ok r1 v1 ∧ k r1 v1 = .err e := by
  cases x with
  | ok r1 v1 => exact Or.inr ⟨r1, v1, rfl, h⟩
  | err e1 => left; cases h; rfl
  | incomplete => simp [RRes.bind] at h
  | panicked => simp [RRes.bind] at h
  | outOfFuel => simp [RRes.bind] at h

theorem bind_eq_panicked {α β : Type} {x : RRes α} {k : Bytes → α → RRes β}
    (h : x.bind k = .panicked) :
    x = .panicked ∨ ∃ r1 v1, x = .ok r1 v1 ∧ k r1 v1 = .panicked := by
  cases x with
  | ok r1 v1 => exact Or.inr ⟨r1, v1, rfl, h⟩
  | err e1 => simp [RRes.bind] at h
  | incomplete => simp [RRes.bind] at h
  | panicked => exact Or.inl rfl
  | outOfFuel => simp [RRes.bind] at h

theorem bind_eq_outOfFuel {α β : Type} {x : RRes α} {k : Bytes → α → RRes β}
    (h : x.bind k = .outOfFuel) :
    x = .outOfFuel ∨ ∃ r1 v1, x = .ok r1 v1 ∧ k r1 v1 = .outOfFuel := by
  cases x with
  | ok r1 v1 => exact Or.inr ⟨r1, v1, rfl, h⟩
  | err e1 => simp [RRes.bind] at h
  | incomplete => simp [RRes.bind] at h
  | panicked => simp [RRes.bind] at h
  | outOfFuel => exact Or.inl rfl

theorem pext_congr {α : Type} {P Q : Bytes → RRes α} (hpq : ∀ i, P i = Q i) (hq : PExt Q) :
    PExt P := by
  intro i ys
  obtain ⟨q1, q2, q3⟩ := hq i ys
  refine ⟨fun r v h => ?_, fun k h => ?_, fun h => ?_⟩
  · rw [hpq] at h; rw [hpq]; exact q1 r v h
  · rw [hpq] at h; rw [hpq]; exact q2 k h
  · rw [hpq] at h; rw [hpq]; exact q3 h

theorem pext_bind {α β : Type} {P : Bytes → RRes α} {K : Bytes → α → RRes β}
    (hP : PExt P) (hK : ∀ v, PExt (fun i => K i v)) :
    PExt (fun i => (P i).bind K) := by
  intro i ys
  refine ⟨?_, ?_, ?_⟩
  · intro r v h
    rcases bind_eq_ok h with ⟨r1, v1, h1, h2⟩
    have e1 := (hP i ys).1 r1 v1 h1
    have e2 := (hK v1 r1 ys).1 r v h2
    simp only [e1, RRes.bind_ok]
    exact e2
  · intro k h
    rcases bind_eq_err h with h1 | ⟨r1, v1, h1, h2⟩
    · have := (hP i ys).2.1 k h1
      simp only [this, RRes.bind_err]
    · have e1 := (hP i ys).1 r1 v1 h1
      have e2 := (hK v1 r1 ys).2.1 k h2
      simp only [e1, RRes.bind_ok]
      exact e2
  · intro h
    rcases bind_eq_panicked h with h1 | ⟨r1, v1, h1, h2⟩
    · have := (hP i ys).2.2 h1
      simp only [this, RRes.bind_panicked]
    · have e1 := (hP i ys).1 r1 v1 h1
      have e2 := (hK v1 r1 ys).2.2 h2
      simp only [e1, RRes.bind_ok]
      exact e2

theorem pext_okConst {α : Type} (w : α) : PExt (fun i => RRes.ok i w) := by
  intro i ys
  refine ⟨fun r v h => ?_, fun k h => ?_, fun h => ?_⟩ <;> cases h <;> rfl

theorem pext_take1P : PExt take1P := by
  rintro (_ | ⟨b, r⟩) ys <;>
    refine ⟨fun rr v h => ?_, fun k h => ?_, fun h => ?_⟩ <;> cases h <;> rfl

theorem pext_beU16P : PExt beU16P := by
  rintro (_ | ⟨a, _ | ⟨b, r⟩⟩) ys <;>
    refine ⟨fun rr v h => ?_, fun k h => ?_, fun h => ?_⟩ <;> cases h <;> rfl

theorem pext_beI8P : PExt beI8P := by
  rintro (_ | ⟨a, r⟩) ys <;>
    refine ⟨fun rr v h => ?_, fun k h => ?_, fun h => ?_⟩ <;> cases h <;> rfl

theorem pext_beI16P : PExt beI16P := by
  rintro (_ | ⟨a, _ | ⟨b, r⟩⟩) ys <;>
    refine ⟨fun rr v h => ?_, fun k h => ?_, fun h => ?_⟩ <;> cases h <;> rfl

theorem pext_beI32P : PExt beI32P := by
  rintro (_ | ⟨a, _ | ⟨b, _ | ⟨c, _ | ⟨d, r⟩⟩⟩⟩) ys <;>
    refine ⟨fun rr v h => ?_, fun k h => ?_, fun h => ?_⟩ <;> cases h <;> rfl

theorem pext_beI64P : PExt beI64P := by
  rintro (_ | ⟨a, _ | ⟨b, _ | ⟨c, _ | ⟨d, _ | ⟨e, _ | ⟨f, _ | ⟨g, _ | ⟨h, r⟩⟩⟩⟩⟩⟩⟩⟩) ys <;>
    refine ⟨fun rr v h => ?_, fun k h => ?_, fun h => ?_⟩ <;> cases h <;> rfl

theorem pext_beF32P : PExt beF32P := by
  rintro (_ | ⟨a, _ | ⟨b, _ | ⟨c, _ | ⟨d, r⟩⟩⟩⟩) ys <;>
    refine ⟨fun rr v h => ?_, fun k h => ?_, fun h => ?_⟩ <;> cases h <;> rfl

theorem pext_beF64P : PExt beF64P := by
  rintro (_ | ⟨a, _ | ⟨b, _ | ⟨c, _ | ⟨d, _ | ⟨e, _ | ⟨f, _ | ⟨g, _ | ⟨h, r⟩⟩⟩⟩⟩⟩⟩⟩) ys <;>
    refine ⟨fun rr v h => ?_, fun k h => ?_, fun h => ?_⟩ <;> cases h <;> rfl

theorem pext_takeP (n : Nat) : PExt (takeP n) := by
  intro i ys
  refine ⟨?_, ?_, ?_⟩
  · intro r v h
    simp only [takeP] at h ⊢
    split at h
    · rename_i hle
      cases h
      have hle2 : n ≤ (i ++ ys).length := by simp; omega
      rw [if_pos hle2, List.take_append_of_le_length hle, List.drop_append_of_le_length hle]
    · cases h
  · intro k h
    simp only [takeP] at h
    split at h <;> cases h
  · intro h
    simp only [takeP] at h
    split at h <;> cases h

theorem pext_tag0P : PExt tag0P := by
  rintro (_ | ⟨_ | b, r⟩) ys <;>
    refine ⟨fun rr v h => ?_, fun k h => ?_, fun h => ?_⟩ <;> cases h <;> rfl

theorem pext_ifOk {α : Type} (c : Bool) (w : α) :
    PExt (fun i => if c then RRes.ok i w else .panicked) := by
  intro i ys
  cases c <;> refine ⟨fun r v h => ?_, fun k h => ?_, fun h => ?_⟩ <;> cases h <;> rfl

theorem pext_readTagName : PExt readTagName := by
  have : ∀ i, readTagName i =
      (beU16P i).bind fun r1 len =>
      (takeP len r1).bind fun r2 name =>
      if utf8Valid name then .ok r2 name else .panicked := fun i => rfl
  refine pext_congr this ?_
  refine pext_bind pext_beU16P fun len => ?_
  exact pext_bind (pext_takeP len) fun name => pext_ifOk (utf8Valid name) name

/- Extension lemmas for the loop combinators: a loop outcome other than
Incomplete or fuel exhaustion is unaffected by appending input. -/

theorem manyMNLoop_ext {α : Type} {sub : Bytes → RRes α} (hsub : PExt sub) :
    ∀ (n : Nat) (i : Bytes) (acc : List α) (ys : Bytes),
      (∀ r a, manyMNLoop sub n i acc = .reachedN r a →
        manyMNLoop sub n (i ++ ys) acc = .reachedN (r ++ ys) a) ∧
      (∀ r a, manyMNLoop sub n i acc = .zeroC r a →
        manyMNLoop sub n (i ++ ys) acc = .zeroC (r ++ ys) a) ∧
      (∀ r a, manyMNLoop sub n i acc = .subErr r a →
        manyMNLoop sub n (i ++ ys) acc = .subErr (r ++ ys) a) ∧
      (manyMNLoop sub n i acc = .subPanic → manyMNLoop sub n (i ++ ys) acc = .subPanic) := by
  intro n
  induction n with
  | zero =>
    intro i acc ys
    refine ⟨fun r a h => ?_, fun r a h => ?_, fun r a h => ?_, fun h => ?_⟩ <;>
      simp only [manyMNLoop] at h ⊢ <;> cases h <;> rfl
  | succ m IH =>
    intro i acc ys
    refine ⟨fun r a h => ?_, fun r a h => ?_, fun r a h => ?_, fun h => ?_⟩ <;>
    · cases hs : sub i with
      | ok r1 v1 =>
        have he := (hsub i ys).1 r1 v1 hs
        by_cases hl : r1.length = i.length
        · have hl2 : (r1 ++ ys).length = (i ++ ys).length := by
            simp only [List.length_append]; omega
          simp only [manyMNLoop, hs, he, if_pos hl, if_pos hl2] at h ⊢
          cases h <;> rfl
        · have hl2 : ¬(r1 ++ ys).length = (i ++ ys).length := by
            simp only [List.length_append]; omega
          simp only [manyMNLoop, hs, he, if_neg hl, if_neg hl2] at h ⊢
          first
          | exact (IH r1 (acc ++ [v1]) ys).1 _ _ h
          | exact (IH r1 (acc ++ [v1]) ys).2.1 _ _ h
          | exact (IH r1 (acc ++ [v1]) ys).2.2.1 _ _ h
          | exact (IH r1 (acc ++ [v1]) ys).2.2.2 h
      | err k1 =>
        have he := (hsub i ys).2.1 k1 hs
        simp only [manyMNLoop, hs, he] at h ⊢
        cases h <;> rfl
      | incomplete =>
        simp only [manyMNLoop, hs] at h
        cases h
      | panicked =>
        have he := (hsub i ys).2.2 hs
        simp only [manyMNLoop, hs, he] at h ⊢
        try cases h
      | outOfFuel =>
        simp only [manyMNLoop, hs] at h
        cases h

theorem manyMN_ext {α : Type} {sub : Bytes → RRes α} (hsub : PExt sub) (m n : Nat) :
    PExt (fun i => manyMN m n sub i) := by
  intro i ys
  refine ⟨fun r v h => ?_, fun k h => ?_, fun h => ?_⟩ <;>
  · cases hl : manyMNLoop sub n i [] with
    | reachedN r1 a1 =>
      have he := (manyMNLoop_ext hsub n i [] ys).1 r1 a1 hl
      simp only [manyMN, hl, he] at h ⊢
      split at h <;> cases h <;> simp_all
    | zeroC r1 a1 =>
      have he := (manyMNLoop_ext hsub n i [] ys).2.1 r1 a1 hl
      simp only [manyMN, hl, he] at h ⊢
      split at h <;> cases h <;> simp_all
    | subErr r1 a1 =>
      have he := (manyMNLoop_ext hsub n i [] ys).2.2.1 r1 a1 hl
      simp only [manyMN, hl, he] at h ⊢
      split at h <;> cases h <;> simp_all
    | subInc =>
      simp only [manyMN, hl] at h
      cases h
    | subPanic =>
      have he := (manyMNLoop_ext hsub n i [] ys).2.2.2 hl
      simp only [manyMN, hl, he] at h ⊢
      try cases h
    | subOof =>
      simp only [manyMN, hl] at h
      cases h

theorem manyTillLoop_ext {α : Type} {content : Bytes → RRes α} {till : Bytes → RRes Unit}
    (hc : PExt content) (ht : PExt till) :
    ∀ (lf d : Nat) (i : Bytes) (acc : List α) (ys : Bytes),
      (∀ r a, manyTillLoop content till lf i acc = .ok r a →
        manyTillLoop content till (lf + d) (i ++ ys) acc = .ok (r ++ ys) a) ∧
      (∀ k, manyTillLoop content till lf i acc = .err k →
        manyTillLoop content till (lf + d) (i ++ ys) acc = .err k) ∧
      (manyTillLoop content till lf i acc = .panicked →
        manyTillLoop content till (lf + d) (i ++ ys) acc = .panicked) := by
  intro lf
  induction lf with
  | zero =>
    intro d i acc ys
    refine ⟨fun r a h => ?_, fun k h => ?_, fun h => ?_⟩ <;> cases h
  | succ m IH =>
    intro d i acc ys
    have hstep : m + 1 + d = (m + d) + 1 := by omega
    rw [hstep]
    refine ⟨fun r a h => ?_, fun k h => ?_, fun h => ?_⟩ <;>
    · cases hs : till i with
      | ok r1 v1 =>
        have he := (ht i ys).1 r1 v1 hs
        simp only [manyTillLoop, hs, he] at h ⊢
        cases h <;> rfl
      | err k1 =>
        have he := (ht i ys).2.1 k1 hs
        cases hcs : content i with
        | ok r1 v1 =>
          have hce := (hc i ys).1 r1 v1 hcs
          by_cases hl : r1.length = i.length
          · have hl2 : (r1 ++ ys).length = (i ++ ys).length := by
              simp only [List.length_append]; omega
            simp only [manyTillLoop, hs, he, hcs, hce, if_pos hl, if_pos hl2] at h ⊢
            cases h <;> rfl
          · have hl2 : ¬(r1 ++ ys).length = (i ++ ys).length := by
              simp only [List.length_append]; omega
            simp only [manyTillLoop, hs, he, hcs, hce, if_neg hl, if_neg hl2] at h ⊢
            first
            | exact (IH d r1 (acc ++ [v1]) ys).1 _ _ h
            | exact (IH d r1 (acc ++ [v1]) ys).2.1 _ h
            | exact (IH d r1 (acc ++ [v1]) ys).2.2 h
        | err k2 =>
          have hce := (hc i ys).2.1 k2 hcs
          simp only [manyTillLoop, hs, he, hcs, hce] at h ⊢
          cases h <;> rfl
        | incomplete =>
          simp only [manyTillLoop, hs, hcs] at h
          cases h
        | panicked =>
          have hce := (hc i ys).2.2 hcs
          simp only [manyTillLoop, hs, he, hcs, hce] at h ⊢
          try cases h
        | outOfFuel =>
          simp only [manyTillLoop, hs, hcs] at h
          cases h
      | incomplete =>
        simp only [manyTillLoop, hs] at h
        cases h
      | panicked =>
        have he := (ht i ys).2.2 hs
        simp only [manyTillLoop, hs, he] at h ⊢
        try cases h
      | outOfFuel =>
        simp only [manyTillLoop, hs] at h
        cases h

theorem pext_errConst {α : Type} (e : ErrK) : PExt (fun _ : Bytes => (RRes.err e : RRes α)) := by
  intro i ys
  refine ⟨fun r v h => ?_, fun k h => ?_, fun h => ?_⟩ <;> cases h <;> rfl

theorem pext_readTagByteP : PExt readTagByteP :=
  pext_congr (fun _ => rfl) (pext_bind pext_beI8P fun v => pext_okConst (NBTTag.TagByte v))

theorem pext_readTagShortP : PExt readTagShortP :=
  pext_congr (fun _ => rfl) (pext_bind pext_beI16P fun v => pext_okConst (NBTTag.TagShort v))

theorem pext_readTagIntP : PExt readTagIntP :=
  pext_congr (fun _ => rfl) (pext_bind pext_beI32P fun v => pext_okConst (NBTTag.TagInt v))

theorem pext_readTagLongP : PExt readTagLongP :=
  pext_congr (fun _ => rfl) (pext_bind pext_beI64P fun v => pext_okConst (NBTTag.TagLong v))

theorem pext_readTagFloatP : PExt readTagFloatP :=
  pext_congr (fun _ => rfl) (pext_bind pext_beF32P fun v => pext_okConst (NBTTag.TagFloat v))

theorem pext_readTagDoubleP : PExt readTagDoubleP :=
  pext_congr (fun _ => rfl) (pext_bind pext_beF64P fun v => pext_okConst (NBTTag.TagDouble v))

theorem pext_readTagStringP : PExt readTagStringP :=
  pext_congr (fun _ => rfl) (pext_bind pext_beU16P fun len =>
    pext_bind (pext_takeP len) fun val =>
      pext_congr (fun _ => rfl) (pext_ifOk (utf8Valid val) (NBTTag.TagString val)))

theorem pext_readTagByteArrayP : PExt readTagByteArrayP :=
  pext_congr (fun _ => rfl) (pext_bind pext_beI32P fun len =>
    pext_bind (manyMN_ext pext_beI8P 1 (asUsize len)) fun v =>
      pext_okConst (NBTTag.TagByteArray v))

theorem pext_readTagIntArrayP : PExt readTagIntArrayP :=
  pext_congr (fun _ => rfl) (pext_bind pext_beI32P fun len =>
    pext_bind (manyMN_ext pext_beI32P 1 (asUsize len)) fun v =>
      pext_okConst (NBTTag.TagIntArray v))

theorem pext_readTagLongArrayP : PExt readTagLongArrayP :=
  pext_congr (fun _ => rfl) (pext_bind pext_beI32P fun len =>
    pext_bind (manyMN_ext pext_beI64P 1 (asUsize len)) fun v =>
      pext_okConst (NBTTag.TagLongArray v))

/-- Appending input to a parse of read_tag_known that returned Ok, an error or a
panic does not change the outcome (only Incomplete results can change): the
parsers never inspect bytes beyond the ones that decide their result. -/
theorem readTagKnown_pext : ∀ f t : Nat, PExt (readTagKnown f t) := by
  intro f
  induction f with
  | zero =>
    intro t i ys
    refine ⟨fun r v h => ?_, fun k h => ?_, fun h => ?_⟩ <;>
      simp only [readTagKnown] at h <;> cases h
  | succ g IH =>
    intro t
    rcases t with _ | _ | _ | _ | _ | _ | _ | _ | _ | _ | _ | _ | _ | t2
    · exact pext_congr (fun _ => rfl) (pext_errConst .custom0)
    · exact pext_congr (fun _ => rfl) pext_readTagByteP
    · exact pext_congr (fun _ => rfl) pext_readTagShortP
    · exact pext_congr (fun _ => rfl) pext_readTagIntP
    · exact pext_congr (fun _ => rfl) pext_readTagLongP
    · exact pext_congr (fun _ => rfl) pext_readTagFloatP
    · exact pext_congr (fun _ => rfl) pext_readTagDoubleP
    · exact pext_congr (fun _ => rfl) pext_readTagByteArrayP
    · exact pext_congr (fun _ => rfl) pext_readTagStringP
    · exact pext_congr (fun _ => rfl) (pext_bind pext_take1P fun et =>
        pext_bind pext_beI32P fun len =>
        pext_bind (manyMN_ext (IH et) 1 (asUsize len)) fun els =>
        pext_okConst (NBTTag.TagList els))
    · -- compound: the loop bound is input-dependent, handled directly
      have hc : PExt (fun j =>
          (take1P j).bind fun r1 tt =>
          (readTagName r1).bind fun r2 nm =>
          (readTagKnown g tt r2).bind fun r3 t => RRes.ok r3 (nm, t)) :=
        pext_bind pext_take1P fun tt =>
          pext_bind pext_readTagName fun nm =>
            pext_bind (IH tt) fun tg => pext_okConst (nm, tg)
      intro i ys
      have hlen : (i ++ ys).length + 1 = (i.length + 1) + ys.length := by
        simp only [List.length_append]; omega
      refine ⟨fun r v h => ?_, fun k h => ?_, fun h => ?_⟩
      · simp only [readTagKnown] at h ⊢
        rw [hlen]
        rcases bind_eq_ok h with ⟨r1, els, h1, h2⟩
        cases h2
        rw [(manyTillLoop_ext hc pext_tag0P (i.length + 1) ys.length i [] ys).1 _ _ h1]
        rfl
      · simp only [readTagKnown] at h ⊢
        rw [hlen]
        rcases bind_eq_err h with h1 | ⟨r1, els, h1, h2⟩
        · rw [(manyTillLoop_ext hc pext_tag0P (i.length + 1) ys.length i [] ys).2.1 _ h1]
          rfl
        · cases h2
      · simp only [readTagKnown] at h ⊢
        rw [hlen]
        rcases bind_eq_panicked h with h1 | ⟨r1, els, h1, h2⟩
        · rw [(manyTillLoop_ext hc pext_tag0P (i.length + 1) ys.length i [] ys).2.2 h1]
          rfl
        · cases h2
    · exact pext_congr (fun _ => rfl) pext_readTagIntArrayP
    · exact pext_congr (fun _ => rfl) pext_readTagLongArrayP
    · exact pext_congr (fun _ => rfl) (pext_errConst .custom0)

/-- The read_tag entry parser extends in the same way. -/
theorem readTag_pext (f : Nat) : PExt (readTag f) :=
  pext_congr (fun _ => rfl) (pext_bind pext_take1P fun tt =>
    pext_bind pext_readTagName fun nm =>
      pext_bind (readTagKnown_pext f tt) fun tg => pext_okConst (nm, tg))

/- Consumption lemmas: a successful parse never returns more input than it was
given, and the fixed-width primitives consume exactly their width. -/

theorem pcons_take1P : PCons take1P := by
  rintro (_ | ⟨b, r⟩) rr v h <;> cases h <;> simp only [List.length_cons] <;> omega

theorem take1P_exact {i rr : Bytes} {v : Nat} (h : take1P i = .ok rr v) :
    rr.length + 1 = i.length := by
  rcases i with _ | ⟨b, r⟩ <;> cases h <;> simp only [List.length_cons]

theorem beU16P_exact {i rr : Bytes} {v : Nat} (h : beU16P i = .ok rr v) :
    rr.length + 2 = i.length := by
  rcases i with _ | ⟨a, _ | ⟨b, r⟩⟩ <;> cases h <;> simp only [List.length_cons]

theorem beI32P_exact {i rr : Bytes} {v : Int} (h : beI32P i = .ok rr v) :
    rr.length + 4 = i.length := by
  rcases i with _ | ⟨a, _ | ⟨b, _ | ⟨c, _ | ⟨d, r⟩⟩⟩⟩ <;> cases h <;> simp only [List.length_cons]

theorem takeP_cons (n : Nat) : PCons (takeP n) := by
  intro i rr v h
  simp only [takeP] at h
  split at h
  · cases h
    simp only [List.length_drop]
    omega
  · cases h

theorem takeP_exact {n : Nat} {i rr : Bytes} {v : Bytes} (h : takeP n i = .ok rr v) :
    rr.length + n = i.length := by
  simp only [takeP] at h
  split at h
  · cases h
    simp only [List.length_drop]
    omega
  · cases h

theorem readTagName_cons2 {i rr v : Bytes} (h : readTagName i = .ok rr v) :
    rr.length + 2 ≤ i.length := by
  simp only [readTagName] at h
  rcases bind_eq_ok h with ⟨r1, len, h1, h2⟩
  rcases bind_eq_ok h2 with ⟨r2, nm, h3, h4⟩
  have e1 := beU16P_exact h1
  have e2 := takeP_exact h3
  split at h4 <;> cases h4
  omega

theorem pcons_beI8P : PCons beI8P := by
  rintro (_ | ⟨a, r⟩) rr v h <;> cases h <;> simp only [List.length_cons] <;> omega

theorem pcons_beU16P : PCons beU16P := by
  rintro (_ | ⟨a, _ | ⟨b, r⟩⟩) rr v h <;> cases h <;> simp only [List.length_cons] <;> omega

theorem pcons_beI16P : PCons beI16P := by
  rintro (_ | ⟨a, _ | ⟨b, r⟩⟩) rr v h <;> cases h <;> simp only [List.length_cons] <;> omega

theorem pcons_beI32P : PCons beI32P := by
  rintro (_ | ⟨a, _ | ⟨b, _ | ⟨c, _ | ⟨d, r⟩⟩⟩⟩) rr v h <;> cases h <;>
    simp only [List.length_cons] <;> omega

theorem pcons_beI64P : PCons beI64P := by
  rintro (_ | ⟨a, _ | ⟨b, _ | ⟨c, _ | ⟨d, _ | ⟨e, _ | ⟨f, _ | ⟨g, _ | ⟨h0, r⟩⟩⟩⟩⟩⟩⟩⟩) rr v h <;>
    cases h <;> simp only [List.length_cons] <;> omega

theorem pcons_beF32P : PCons beF32P := by
  rintro (_ | ⟨a, _ | ⟨b, _ | ⟨c, _ | ⟨d, r⟩⟩⟩⟩) rr v h <;> cases h <;>
    simp only [List.length_cons] <;> omega

theorem pcons_beF64P : PCons beF64P := by
  rintro (_ | ⟨a, _ | ⟨b, _ | ⟨c, _ | ⟨d, _ | ⟨e, _ | ⟨f, _ | ⟨g, _ | ⟨h0, r⟩⟩⟩⟩⟩⟩⟩⟩) rr v h <;>
    cases h <;> simp only [List.length_cons] <;> omega

theorem pcons_tag0P : PCons tag0P := by
  rintro (_ | ⟨_ | b, r⟩) rr v h <;> cases h <;> simp only [List.length_cons] <;> omega

theorem pcons_bind {α β : Type} {P : Bytes → RRes α} {K : Bytes → α → RRes β}
    (hP : PCons P) (hK : ∀ v, PCons (fun i => K i v)) :
    PCons (fun i => (P i).bind K) := by
  intro i rr v h
  rcases bind_eq_ok h with ⟨r1, v1, h1, h2⟩
  exact le_trans (hK v1 r1 rr v h2) (hP i r1 v1 h1)

theorem pcons_okConst {α : Type} (w : α) : PCons (fun i => RRes.ok i w) := by
  intro i rr v h
  cases h
  exact le_refl _

theorem pcons_ifOk {α : Type} (c : Bool) (w : α) :
    PCons (fun i => if c then RRes.ok i w else .panicked) := by
  intro i rr v h
  cases c
  · cases h
  · cases h
    exact le_refl _

theorem pcons_readTagName : PCons readTagName := by
  intro i rr v h
  have := readTagName_cons2 h
  omega

theorem manyMNLoop_cons {α : Type} {sub : Bytes → RRes α} (hsub : PCons sub) :
    ∀ (n : Nat) (i : Bytes) (acc : List α),
      (∀ r a, manyMNLoop sub n i acc = .reachedN r a → r.length ≤ i.length) ∧
      (∀ r a, manyMNLoop sub n i acc = .zeroC r a → r.length ≤ i.length) ∧
      (∀ r a, manyMNLoop sub n i acc = .subErr r a → r.length ≤ i.length) := by
  intro n
  induction n with
  | zero =>
    intro i acc
    refine ⟨fun r a h => ?_, fun r a h => ?_, fun r a h => ?_⟩ <;>
      simp only [manyMNLoop] at h <;> cases h <;> exact le_refl _
  | succ m IH =>
    intro i acc
    refine ⟨fun r a h => ?_, fun r a h => ?_, fun r a h => ?_⟩ <;>
    · cases hs : sub i with
      | ok r1 v1 =>
        by_cases hl : r1.length = i.length
        · simp only [manyMNLoop, hs, if_pos hl] at h
          cases h <;> exact le_refl _
        · simp only [manyMNLoop, hs, if_neg hl] at h
          have hle := hsub i r1 v1 hs
          first
          | exact le_trans ((IH r1 (acc ++ [v1])).1 _ _ h) hle
          | exact le_trans ((IH r1 (acc ++ [v1])).2.1 _ _ h) hle
          | exact le_trans ((IH r1 (acc ++ [v1])).2.2 _ _ h) hle
      | err k1 =>
        simp only [manyMNLoop, hs] at h
        cases h <;> exact le_refl _
      | incomplete =>
        simp only [manyMNLoop, hs] at h
        cases h
      | panicked =>
        simp only [manyMNLoop, hs] at h
        cases h
      | outOfFuel =>
        simp only [manyMNLoop, hs] at h
        cases h

theorem manyMN_cons {α : Type} {sub : Bytes → RRes α} (hsub : PCons sub) (m n : Nat) :
    PCons (fun i => manyMN m n sub i) := by
  intro i rr v h
  cases hl : manyMNLoop sub n i [] with
  | reachedN r1 a1 =>
    simp only [manyMN, hl] at h
    split at h <;> cases h
    exact (manyMNLoop_cons hsub n i []).1 _ _ hl
  | zeroC r1 a1 =>
    simp only [manyMN, hl] at h
    split at h <;> cases h
    exact (manyMNLoop_cons hsub n i []).2.1 _ _ hl
  | subErr r1 a1 =>
    simp only [manyMN, hl] at h
    split at h <;> cases h
    exact (manyMNLoop_cons hsub n i []).2.2 _ _ hl
  | subInc => simp only [manyMN, hl] at h; cases h
  | subPanic => simp only [manyMN, hl] at h; cases h
  | subOof => simp only [manyMN, hl] at h; cases h

theorem manyTillLoop_cons {α : Type} {content : Bytes → RRes α} {till : Bytes → RRes Unit}
    (hc : PCons content) (ht : PCons till) :
    ∀ (lf : Nat) (i : Bytes) (acc : List α) (r : Bytes) (a : List α),
      manyTillLoop content till lf i acc = .ok r a → r.length ≤ i.length := by
  intro lf
  induction lf with
  | zero => intro i acc r a h; cases h
  | succ m IH =>
    intro i acc r a h
    cases hs : till i with
    | ok r1 v1 =>
      simp only [manyTillLoop, hs] at h
      cases h
      exact ht i _ _ hs
    | err k1 =>
      cases hcs : content i with
      | ok r1 v1 =>
        by_cases hl : r1.length = i.length
        · simp only [manyTillLoop, hs, hcs, if_pos hl] at h
          cases h
        · simp only [manyTillLoop, hs, hcs, if_neg hl] at h
          exact le_trans (IH r1 (acc ++ [v1]) r a h) (hc i r1 v1 hcs)
      | err k2 => simp only [manyTillLoop, hs, hcs] at h; cases h
      | incomplete => simp only [manyTillLoop, hs, hcs] at h; cases h
      | panicked => simp only [manyTillLoop, hs, hcs] at h; cases h
      | outOfFuel => simp only [manyTillLoop, hs, hcs] at h; cases h
    | incomplete => simp only [manyTillLoop, hs] at h; cases h
    | panicked => simp only [manyTillLoop, hs] at h; cases h
    | outOfFuel => simp only [manyTillLoop, hs] at h; cases h

theorem pcons_readTagByteArrayP : PCons readTagByteArrayP := by
  intro i rr v h
  exact pcons_bind pcons_beI32P
    (fun len => pcons_bind (manyMN_cons pcons_beI8P 1 (asUsize len))
      (fun w => pcons_okConst (NBTTag.TagByteArray w))) i rr v h

theorem pcons_readTagIntArrayP : PCons readTagIntArrayP := by
  intro i rr v h
  exact pcons_bind pcons_beI32P
    (fun len => pcons_bind (manyMN_cons pcons_beI32P 1 (asUsize len))
      (fun w => pcons_okConst (NBTTag.TagIntArray w))) i rr v h

theorem pcons_readTagLongArrayP : PCons readTagLongArrayP := by
  intro i rr v h
  exact pcons_bind pcons_beI32P
    (fun len => pcons_bind (manyMN_cons pcons_beI64P 1 (asUsize len))
      (fun w => pcons_okConst (NBTTag.TagLongArray w))) i rr v h

theorem pcons_readTagStringP : PCons readTagStringP := by
  intro i rr v h
  refine pcons_bind pcons_beU16P (fun len => pcons_bind (takeP_cons len) fun val => ?_) i rr v h
  intro j r2 v2 h2
  simp only at h2
  split at h2 <;> cases h2
  exact le_refl _

/-- Successful parses of read_tag_known consume input monotonically. -/
theorem readTagKnown_cons : ∀ f t : Nat, PCons (readTagKnown f t) := by
  intro f
  induction f with
  | zero =>
    intro t i rr v h
    simp only [readTagKnown] at h
    cases h
  | succ g IH =>
    intro t
    rcases t with _ | _ | _ | _ | _ | _ | _ | _ | _ | _ | _ | _ | _ | t2
    · intro i rr v h; simp only [readTagKnown] at h; cases h
    · exact fun i rr v h => pcons_bind pcons_beI8P (fun w => pcons_okConst _) i rr v h
    · exact fun i rr v h => pcons_bind pcons_beI16P (fun w => pcons_okConst _) i rr v h
    · exact fun i rr v h => pcons_bind pcons_beI32P (fun w => pcons_okConst _) i rr v h
    · exact fun i rr v h => pcons_bind pcons_beI64P (fun w => pcons_okConst _) i rr v h
    · exact fun i rr v h => pcons_bind pcons_beF32P (fun w => pcons_okConst _) i rr v h
    · exact fun i rr v h => pcons_bind pcons_beF64P (fun w => pcons_okConst _) i rr v h
    · exact fun i rr v h => pcons_readTagByteArrayP i rr v h
    · exact fun i rr v h => pcons_readTagStringP i rr v h
    · exact fun i rr v h =>
        pcons_bind pcons_take1P (fun et =>
          pcons_bind pcons_beI32P (fun len =>
            pcons_bind (manyMN_cons (IH et) 1 (asUsize len)) (fun els => pcons_okConst _)))
          i rr v h
    · intro i rr v h
      simp only [readTagKnown] at h
      rcases bind_eq_ok h with ⟨r1, els, h1, h2⟩
      cases h2
      have hcc : PCons (fun j =>
          (take1P j).bind fun r1 tt =>
          (readTagName r1).bind fun r2 nm =>
          (readTagKnown g tt r2).bind fun r3 t => RRes.ok r3 (nm, t)) :=
        pcons_bind pcons_take1P fun tt =>
          pcons_bind pcons_readTagName fun nm =>
            pcons_bind (IH tt) fun tg => pcons_okConst (nm, tg)
      exact manyTillLoop_cons hcc pcons_tag0P (i.length + 1) i [] _ _ h1
    · exact fun i rr v h => pcons_readTagIntArrayP i rr v h
    · exact fun i rr v h => pcons_readTagLongArrayP i rr v h
    · intro i rr v h; simp only [readTagKnown] at h; cases h

/-- Successful parses of read_tag consume at least the type byte and the name
length, and never more than the input. -/
theorem readTag_cons (f : Nat) : PCons (readTag f) :=
  pcons_bind pcons_take1P fun tt =>
    pcons_bind pcons_readTagName fun nm =>
      pcons_bind (readTagKnown_cons f tt) fun tg => pcons_okConst (nm, tg)

/- Fuel adequacy: with more fuel than the input length, the model never reports
fuel exhaustion, so the chosen entry-point fuel reproduces the unbounded Rust
recursion. -/

theorem take1P_noOof (i : Bytes) : take1P i ≠ .outOfFuel := by
  rcases i with _ | ⟨b, r⟩ <;> intro h <;> cases h

theorem beU16P_noOof (i : Bytes) : beU16P i ≠ .outOfFuel := by
  rcases i with _ | ⟨a, _ | ⟨b, r⟩⟩ <;> intro h <;> cases h

theorem beI8P_noOof (i : Bytes) : beI8P i ≠ .outOfFuel := by
  rcases i with _ | ⟨a, r⟩ <;> intro h <;> cases h

theorem beI16P_noOof (i : Bytes) : beI16P i ≠ .outOfFuel := by
  rcases i with _ | ⟨a, _ | ⟨b, r⟩⟩ <;> intro h <;> cases h

theorem beI32P_noOof (i : Bytes) : beI32P i ≠ .outOfFuel := by
  rcases i with _ | ⟨a, _ | ⟨b, _ | ⟨c, _ | ⟨d, r⟩⟩⟩⟩ <;> intro h <;> cases h

theorem beI64P_noOof (i : Bytes) : beI64P i ≠ .outOfFuel := by
  rcases i with _ | ⟨a, _ | ⟨b, _ | ⟨c, _ | ⟨d, _ | ⟨e, _ | ⟨f, _ | ⟨g, _ | ⟨h0, r⟩⟩⟩⟩⟩⟩⟩⟩ <;>
    intro h <;> cases h

theorem beF32P_noOof (i : Bytes) : beF32P i ≠ .outOfFuel := by
  rcases i with _ | ⟨a, _ | ⟨b, _ | ⟨c, _ | ⟨d, r⟩⟩⟩⟩ <;> intro h <;> cases h

theorem beF64P_noOof (i : Bytes) : beF64P i ≠ .outOfFuel := by
  rcases i with _ | ⟨a, _ | ⟨b, _ | ⟨c, _ | ⟨d, _ | ⟨e, _ | ⟨f, _ | ⟨g, _ | ⟨h0, r⟩⟩⟩⟩⟩⟩⟩⟩ <;>
    intro h <;> cases h

theorem takeP_noOof (n : Nat) (i : Bytes) : takeP n i ≠ .outOfFuel := by
  simp only [takeP]
  split <;> intro h <;> cases h

theorem tag0P_noOof (i : Bytes) : tag0P i ≠ .outOfFuel := by
  rcases i with _ | ⟨_ | b, r⟩ <;> intro h <;> cases h

theorem bind_noOof {α β : Type} {P : Bytes → RRes α} {K : Bytes → α → RRes β} {i : Bytes}
    (hP : P i ≠ .outOfFuel) (hK : ∀ r v, P i = .ok r v → K r v ≠ .outOfFuel) :
    (P i).bind K ≠ .outOfFuel := by
  intro h
  rcases bind_eq_outOfFuel h with h1 | ⟨r1, v1, h1, h2⟩
  · exact hP h1
  · exact hK r1 v1 h1 h2

theorem readTagName_noOof (i : Bytes) : readTagName i ≠ .outOfFuel := by
  refine bind_noOof (beU16P_noOof i) fun r1 len h1 => ?_
  refine bind_noOof (takeP_noOof len r1) fun r2 nm h2 => ?_
  split <;> intro h <;> cases h

theorem manyMNLoop_noOof {α : Type} {sub : Bytes → RRes α} {L : Nat}
    (hno : ∀ j : Bytes, j.length ≤ L → sub j ≠ .outOfFuel) (hc : PCons sub) :
    ∀ (n : Nat) (j : Bytes) (acc : List α), j.length ≤ L →
      manyMNLoop sub n j acc ≠ .subOof := by
  intro n
  induction n with
  | zero => intro j acc hj h; cases h
  | succ m IH =>
    intro j acc hj h
    cases hs : sub j with
    | ok r1 v1 =>
      by_cases hl : r1.length = j.length
      · simp only [manyMNLoop, hs, if_pos hl] at h
        cases h
      · simp only [manyMNLoop, hs, if_neg hl] at h
        have hle : r1.length ≤ j.length := hc j r1 v1 hs
        exact IH r1 (acc ++ [v1]) (by omega) h
    | err k1 => simp only [manyMNLoop, hs] at h; cases h
    | incomplete => simp only [manyMNLoop, hs] at h; cases h
    | panicked => simp only [manyMNLoop, hs] at h; cases h
    | outOfFuel => exact hno j hj hs

theorem manyMN_noOof {α : Type} {sub : Bytes → RRes α} {L : Nat}
    (hno : ∀ j : Bytes, j.length ≤ L → sub j ≠ .outOfFuel) (hc : PCons sub)
    (m n : Nat) (i : Bytes) (hi : i.length ≤ L) :
    manyMN m n sub i ≠ .outOfFuel := by
  intro h
  cases hl : manyMNLoop sub n i [] with
  | reachedN r1 a1 => simp only [manyMN, hl] at h; split at h <;> cases h
  | zeroC r1 a1 => simp only [manyMN, hl] at h; split at h <;> cases h
  | subErr r1 a1 => simp only [manyMN, hl] at h; split at h <;> cases h
  | subInc => simp only [manyMN, hl] at h; cases h
  | subPanic => simp only [manyMN, hl] at h; cases h
  | subOof => exact manyMNLoop_noOof hno hc n i [] hi hl

theorem manyTillLoop_noOof {α : Type} {content : Bytes → RRes α} {till : Bytes → RRes Unit}
    {L : Nat}
    (hcno : ∀ j : Bytes, j.length ≤ L → content j ≠ .outOfFuel) (hccons : PCons content)
    (htno : ∀ j : Bytes, till j ≠ .outOfFuel) :
    ∀ (lf : Nat) (j : Bytes) (acc : List α), j.length ≤ L → j.length < lf →
      manyTillLoop content till lf j acc ≠ .outOfFuel := by
  intro lf
  induction lf with
  | zero => intro j acc hj hlt; omega
  | succ m IH =>
    intro j acc hj hlt h
    cases hs : till j with
    | ok r1 v1 => simp only [manyTillLoop, hs] at h; cases h
    | err k1 =>
      cases hcs : content j with
      | ok r1 v1 =>
        by_cases hl : r1.length = j.length
        · simp only [manyTillLoop, hs, hcs, if_pos hl] at h
          cases h
        · simp only [manyTillLoop, hs, hcs, if_neg hl] at h
          have hle : r1.length ≤ j.length := hccons j r1 v1 hcs
          exact IH r1 (acc ++ [v1]) (by omega) (by omega) h
      | err k2 => simp only [manyTillLoop, hs, hcs] at h; cases h
      | incomplete => simp only [manyTillLoop, hs, hcs] at h; cases h
      | panicked => simp only [manyTillLoop, hs, hcs] at h; cases h
      | outOfFuel => exact hcno j hj hcs
    | incomplete => simp only [manyTillLoop, hs] at h; cases h
    | panicked => simp only [manyTillLoop, hs] at h; cases h
    | outOfFuel => exact htno j hs

/-- With fuel exceeding the input length, read_tag_known never exhausts the
model fuel. -/
theorem readTagKnown_adeq : ∀ f t : Nat, ∀ i : Bytes, i.length < f →
    readTagKnown f t i ≠ .outOfFuel := by
  intro f
  induction f with
  | zero => intro t i hi; omega
  | succ g IH =>
    intro t
    have hentry : ∀ (j : Bytes), j.length ≤ g →
        ((take1P j).bind fun r1 tt =>
          (readTagName r1).bind fun r2 nm =>
          (readTagKnown g tt r2).bind fun r3 t => RRes.ok r3 (nm, t)) ≠ .outOfFuel := by
      intro j hj
      refine bind_noOof (take1P_noOof j) fun r1 tt h1 => ?_
      refine bind_noOof (readTagName_noOof r1) fun r2 nm h2 => ?_
      refine bind_noOof ?_ fun r3 tg h3 => ?_
      · have e1 := take1P_exact h1
        have e2 := readTagName_cons2 h2
        exact IH tt r2 (by omega)
      · intro h; cases h
    rcases t with _ | _ | _ | _ | _ | _ | _ | _ | _ | _ | _ | _ | _ | t2
    · intro i hi h; simp only [readTagKnown] at h; cases h
    · intro i hi; exact bind_noOof (beI8P_noOof i) fun r v h1 => by intro h; cases h
    · intro i hi; exact bind_noOof (beI16P_noOof i) fun r v h1 => by intro h; cases h
    · intro i hi; exact bind_noOof (beI32P_noOof i) fun r v h1 => by intro h; cases h
    · intro i hi; exact bind_noOof (beI64P_noOof i) fun r v h1 => by intro h; cases h
    · intro i hi; exact bind_noOof (beF32P_noOof i) fun r v h1 => by intro h; cases h
    · intro i hi; exact bind_noOof (beF64P_noOof i) fun r v h1 => by intro h; cases h
    · intro i hi
      refine bind_noOof (beI32P_noOof i) fun r len h1 => ?_
      refine bind_noOof ?_ fun r2 w h2 => by intro h; cases h
      exact manyMN_noOof (L := r.length) (fun j hj => beI8P_noOof j) pcons_beI8P 1 _ r (le_refl _)
    · intro i hi
      refine bind_noOof (beU16P_noOof i) fun r len h1 => ?_
      refine bind_noOof (takeP_noOof len r) fun r2 w h2 => ?_
      split <;> intro h <;> cases h
    · intro i hi
      refine bind_noOof (take1P_noOof i) fun r1 et h1 => ?_
      refine bind_noOof (beI32P_noOof r1) fun r2 len h2 => ?_
      refine bind_noOof ?_ fun r3 els h3 => by intro h; cases h
      have e1 := take1P_exact h1
      have e2 := beI32P_exact h2
      refine manyMN_noOof (L := r2.length) (fun j hj => IH et j (by omega)) (readTagKnown_cons g et)
        1 _ r2 (le_refl _)
    · intro i hi h
      simp only [readTagKnown] at h
      have hccons : PCons (fun j =>
          (take1P j).bind fun r1 tt =>
          (readTagName r1).bind fun r2 nm =>
          (readTagKnown g tt r2).bind fun r3 t => RRes.ok r3 (nm, t)) :=
        pcons_bind pcons_take1P fun tt =>
          pcons_bind pcons_readTagName fun nm =>
            pcons_bind (readTagKnown_cons g tt) fun tg => pcons_okConst (nm, tg)
      rcases bind_eq_outOfFuel h with h1 | ⟨r1, els, h1, h2⟩
      · exact manyTillLoop_noOof (L := i.length) (fun j hj => hentry j (by omega)) hccons
          (fun j => tag0P_noOof j) (i.length + 1) i [] (le_refl _) (by omega) h1
      · cases h2
    · intro i hi
      refine bind_noOof (beI32P_noOof i) fun r len h1 => ?_
      refine bind_noOof ?_ fun r2 w h2 => by intro h; cases h
      exact manyMN_noOof (L := r.length) (fun j hj => beI32P_noOof j) pcons_beI32P 1 _ r (le_refl _)
    · intro i hi
      refine bind_noOof (beI32P_noOof i) fun r len h1 => ?_
      refine bind_noOof ?_ fun r2 w h2 => by intro h; cases h
      exact manyMN_noOof (L := r.length) (fun j hj => beI64P_noOof j) pcons_beI64P 1 _ r (le_refl _)
    · intro i hi h; simp only [readTagKnown] at h; cases h

/-- With fuel at least the input length minus two, read_tag never exhausts the
model fuel; in particular the entry-point fuel input.length + 3 is adequate. -/
theorem readTag_adeq (f : Nat) (i : Bytes) (hi : i.length < f + 3) :
    readTag f i ≠ .outOfFuel := by
  refine bind_noOof (take1P_noOof i) fun r1 tt h1 => ?_
  refine bind_noOof (readTagName_noOof r1) fun r2 nm h2 => ?_
  refine bind_noOof ?_ fun r3 tg h3 => by intro h; cases h
  have e1 := take1P_exact h1
  have e2 := readTagName_cons2 h2
  exact readTagKnown_adeq f tt r2 (by omega)

/- Fuel monotonicity: increasing the model fuel does not change any result other
than fuel exhaustion, so all adequate fuels agree. -/

theorem bindPure_oof {α β : Type} {x : RRes α} {K : Bytes → α → RRes β}
    (hK : ∀ r v, K r v ≠ .outOfFuel) : x.bind K = .outOfFuel ↔ x = .outOfFuel := by
  cases x with
  | ok r v =>
    simp only [RRes.bind_ok]
    exact ⟨fun h => absurd h (hK r v), fun h => by cases h⟩
  | err e => simp [RRes.bind]
  | incomplete => simp [RRes.bind]
  | panicked => simp [RRes.bind]
  | outOfFuel => simp [RRes.bind]

theorem manyMNLoop_ref {α : Type} {sub sub2 : Bytes → RRes α}
    (hsub : ∀ j, sub j ≠ .outOfFuel → sub2 j = sub j) :
    ∀ (n : Nat) (j : Bytes) (acc : List α), manyMNLoop sub n j acc ≠ .subOof →
      manyMNLoop sub2 n j acc = manyMNLoop sub n j acc := by
  intro n
  induction n with
  | zero => intro j acc hno; rfl
  | succ m IH =>
    intro j acc hno
    cases hs : sub j with
    | ok r1 v1 =>
      have hs2 : sub2 j = sub j := hsub j (by rw [hs]; intro h; cases h)
      rw [hs] at hs2
      by_cases hl : r1.length = j.length
      · simp only [manyMNLoop, hs, hs2, if_pos hl]
      · simp only [manyMNLoop, hs, hs2, if_neg hl]
        refine IH r1 (acc ++ [v1]) ?_
        simp only [manyMNLoop, hs, if_neg hl] at hno
        exact hno
    | err k1 =>
      have hs2 : sub2 j = sub j := hsub j (by rw [hs]; intro h; cases h)
      rw [hs] at hs2
      simp only [manyMNLoop, hs, hs2]
    | incomplete =>
      have hs2 : sub2 j = sub j := hsub j (by rw [hs]; intro h; cases h)
      rw [hs] at hs2
      simp only [manyMNLoop, hs, hs2]
    | panicked =>
      have hs2 : sub2 j = sub j := hsub j (by rw [hs]; intro h; cases h)
      rw [hs] at hs2
      simp only [manyMNLoop, hs, hs2]
    | outOfFuel =>
      exact absurd (by simp only [manyMNLoop, hs]) hno

theorem manyMN_ref {α : Type} {sub sub2 : Bytes → RRes α}
    (hsub : ∀ j, sub j ≠ .outOfFuel → sub2 j = sub j)
    (m n : Nat) (i : Bytes) (hno : manyMN m n sub i ≠ .outOfFuel) :
    manyMN m n sub2 i = manyMN m n sub i := by
  have hloop : manyMNLoop sub n i [] ≠ .subOof := by
    intro h
    apply hno
    simp only [manyMN, h]
  rw [manyMN, manyMN, manyMNLoop_ref hsub n i [] hloop]

theorem manyTillLoop_ref {α : Type} {content content2 : Bytes → RRes α}
    {till : Bytes → RRes Unit}
    (hc : ∀ j, content j ≠ .outOfFuel → content2 j = content j) :
    ∀ (lf : Nat) (j : Bytes) (acc : List α),
      manyTillLoop content till lf j acc ≠ .outOfFuel →
      manyTillLoop content2 till lf j acc = manyTillLoop content till lf j acc := by
  intro lf
  induction lf with
  | zero => intro j acc hno; exact absurd rfl hno
  | succ m IH =>
    intro j acc hno
    cases hs : till j with
    | ok r1 v1 => simp only [manyTillLoop, hs]
    | err k1 =>
      cases hcs : content j with
      | ok r1 v1 =>
        have hcs2 : content2 j = content j := hc j (by rw [hcs]; intro h; cases h)
        rw [hcs] at hcs2
        by_cases hl : r1.length = j.length
        · simp only [manyTillLoop, hs, hcs, hcs2, if_pos hl]
        · simp only [manyTillLoop, hs, hcs, hcs2, if_neg hl]
          refine IH r1 (acc ++ [v1]) ?_
          simp only [manyTillLoop, hs, hcs, if_neg hl] at hno
          exact hno
      | err k2 =>
        have hcs2 : content2 j = content j := hc j (by rw [hcs]; intro h; cases h)
        rw [hcs] at hcs2
        simp only [manyTillLoop, hs, hcs, hcs2]
      | incomplete =>
        have hcs2 : content2 j = content j := hc j (by rw [hcs]; intro h; cases h)
        rw [hcs] at hcs2
        simp only [manyTillLoop, hs, hcs, hcs2]
      | panicked =>
        have hcs2 : content2 j = content j := hc j (by rw [hcs]; intro h; cases h)
        rw [hcs] at hcs2
        simp only [manyTillLoop, hs, hcs, hcs2]
      | outOfFuel =>
        exact absurd (by simp only [manyTillLoop, hs, hcs]) hno
    | incomplete => simp only [manyTillLoop, hs]
    | panicked => simp only [manyTillLoop, hs]
    | outOfFuel =>
      exact absurd (by simp only [manyTillLoop, hs]) hno

/-- Any two adequate fuels give the same read_tag_known result. -/
theorem readTagKnown_mono : ∀ f f2 : Nat, f ≤ f2 → ∀ (t : Nat) (i : Bytes),
    readTagKnown f t i ≠ .outOfFuel → readTagKnown f2 t i = readTagKnown f t i := by
  intro f
  induction f with
  | zero =>
    intro f2 hf t i hno
    exact absurd (by simp only [readTagKnown]) hno
  | succ g IH =>
    intro f2 hf t i hno
    rcases f2 with _ | g2
    · omega
    have hg : g ≤ g2 := by omega
    rcases t with _ | _ | _ | _ | _ | _ | _ | _ | _ | _ | _ | _ | _ | t2
    · rfl
    · rfl
    · rfl
    · rfl
    · rfl
    · rfl
    · rfl
    · rfl
    · rfl
    · -- list
      simp only [readTagKnown] at hno ⊢
      cases hs : take1P i with
      | ok r1 et =>
        rw [hs] at hno
        simp only [RRes.bind_ok] at hno ⊢
        cases hs2 : beI32P r1 with
        | ok r2 len =>
          rw [hs2] at hno
          simp only [RRes.bind_ok] at hno ⊢
          have hmno : manyMN 1 (asUsize len) (fun j => readTagKnown g et j) r2 ≠ .outOfFuel := by
            intro h
            rw [h] at hno
            exact hno rfl
          rw [manyMN_ref (fun j hj => IH g2 hg et j hj) 1 (asUsize len) r2 hmno]
        | err k => rfl
        | incomplete => rfl
        | panicked => rfl
        | outOfFuel => rw [hs2] at hno; exact absurd rfl hno
      | err k => rfl
      | incomplete => rfl
      | panicked => rfl
      | outOfFuel => rw [hs] at hno; exact absurd rfl hno
    · -- compound
      simp only [readTagKnown] at hno ⊢
      have hcref : ∀ j, ((take1P j).bind fun r1 tt =>
          (readTagName r1).bind fun r2 nm =>
          (readTagKnown g tt r2).bind fun r3 t => RRes.ok r3 (nm, t)) ≠ .outOfFuel →
          ((take1P j).bind fun r1 tt =>
          (readTagName r1).bind fun r2 nm =>
          (readTagKnown g2 tt r2).bind fun r3 t => RRes.ok r3 (nm, t)) =
          ((take1P j).bind fun r1 tt =>
          (readTagName r1).bind fun r2 nm =>
          (readTagKnown g tt r2).bind fun r3 t => RRes.ok r3 (nm, t)) := by
        intro j hj
        cases h1 : take1P j with
        | ok r1 tt =>
          rw [h1] at hj
          simp only [RRes.bind_ok] at hj ⊢
          cases h2 : readTagName r1 with
          | ok r2 nm =>
            rw [h2] at hj
            simp only [RRes.bind_ok] at hj ⊢
            have hkno : readTagKnown g tt r2 ≠ .outOfFuel := by
              intro h
              rw [h] at hj
              exact hj rfl
            rw [IH g2 hg tt r2 hkno]
          | err k => rfl
          | incomplete => rfl
          | panicked => rfl
          | outOfFuel => rw [h2] at hj; exact absurd rfl hj
        | err k => rfl
        | incomplete => rfl
        | panicked => rfl
        | outOfFuel => rw [h1] at hj; exact absurd rfl hj
      have hlno : manyTillLoop (fun j =>
          (take1P j).bind fun r1 tt =>
          (readTagName r1).bind fun r2 nm =>
          (readTagKnown g tt r2).bind fun r3 t => RRes.ok r3 (nm, t)) tag0P
          (i.length + 1) i [] ≠ .outOfFuel := by
        intro h
        rw [h] at hno
        exact hno rfl
      rw [manyTillLoop_ref hcref (i.length + 1) i [] hlno]
    · rfl
    · rfl
    · rfl

/-- Any two adequate fuels give the same read_tag result. -/
theorem readTag_mono (f f2 : Nat) (hf : f ≤ f2) (i : Bytes)
    (hno : readTag f i ≠ .outOfFuel) : readTag f2 i = readTag f i := by
  simp only [readTag] at hno ⊢
  cases h1 : take1P i with
  | ok r1 tt =>
    rw [h1] at hno
    simp only [RRes.bind_ok] at hno ⊢
    cases h2 : readTagName r1 with
    | ok r2 nm =>
      rw [h2] at hno
      simp only [RRes.bind_ok] at hno ⊢
      have hkno : readTagKnown f tt r2 ≠ .outOfFuel := by
        intro h
        rw [h] at hno
        exact hno rfl
      rw [readTagKnown_mono f f2 hf tt r2 hkno]
    | err k => rfl
    | incomplete => rfl
    | panicked => rfl
    | outOfFuel => rw [h2] at hno; exact absurd rfl hno
  | err k => rfl
  | incomplete => rfl
  | panicked => rfl
  | outOfFuel => rw [h1] at hno; exact absurd rfl hno

/-- Decomposition of a successful read_nbt_file run. -/
theorem readNbtFile_ok_inv {b r : Bytes} {o : Option NBTFile}
    (h : readNbtFile b = .ok r o) :
    ∃ root : Bytes × NBTTag, readTag (b.length + 3) b = .ok r root ∧
      fileFromTuple root.1 root.2 = o := by
  simp only [readNbtFile] at h
  rcases bind_eq_ok h with ⟨r1, root, h1, h2⟩
  cases h2
  exact ⟨root, h1, rfl⟩

/-- C4 (supporting form): a strict prefix of a fully consumed, successfully
decoded byte sequence always decodes to Incomplete. -/
theorem readNbtFile_strict_pre_incomplete {b p q : Bytes} {fl : NBTFile}
    (hb : readNbtFile b = .ok [] (some fl)) (hpq : b = p ++ q) (hq : q ≠ []) :
    readNbtFile p = .incomplete := by
  subst hpq
  rcases readNbtFile_ok_inv hb with ⟨root, h1, h2⟩
  simp only [readNbtFile]
  cases hp : readTag (p.length + 3) p with
  | ok r2 root2 =>
    exfalso
    have hext := (readTag_pext (p.length + 3) p q).1 r2 root2 hp
    have hne : readTag (p.length + 3) (p ++ q) ≠ .outOfFuel := by
      rw [hext]; intro h; cases h
    have hmono := readTag_mono (p.length + 3) ((p ++ q).length + 3)
      (by simp only [List.length_append]; omega) (p ++ q) hne
    rw [hmono, hext] at h1
    injection h1 with h3 h4
    exact hq (List.append_eq_nil.mp h3).2
  | err k =>
    exfalso
    have hext := (readTag_pext (p.length + 3) p q).2.1 k hp
    have hne : readTag (p.length + 3) (p ++ q) ≠ .outOfFuel := by
      rw [hext]; intro h; cases h
    have hmono := readTag_mono (p.length + 3) ((p ++ q).length + 3)
      (by simp only [List.length_append]; omega) (p ++ q) hne
    rw [hmono, hext] at h1
    cases h1
  | incomplete => rfl
  | panicked =>
    exfalso
    have hext := (readTag_pext (p.length + 3) p q).2.2 hp
    have hne : readTag (p.length + 3) (p ++ q) ≠ .outOfFuel := by
      rw [hext]; intro h; cases h
    have hmono := readTag_mono (p.length + 3) ((p ++ q).length + 3)
      (by simp only [List.length_append]; omega) (p ++ q) hne
    rw [hmono, hext] at h1
    cases h1
  | outOfFuel => exact absurd hp (readTag_adeq (p.length + 3) p (by omega))

/-- C10 (supporting form): appending arbitrary bytes to a fully consumed,
successfully decoded document leaves the decoded document unchanged, with the
appended bytes as the unconsumed rest. -/
theorem readNbtFile_append {b e : Bytes} {fl : NBTFile}
    (hb : readNbtFile b = .ok [] (some fl)) :
    readNbtFile (b ++ e) = .ok e (some fl) := by
  rcases readNbtFile_ok_inv hb with ⟨root, h1, h2⟩
  have hext := (readTag_pext (b.length + 3) b e).1 [] root h1
  simp only [List.nil_append] at hext
  have hne : readTag (b.length + 3) (b ++ e) ≠ .outOfFuel := by
    rw [hext]; intro h; cases h
  have hmono := readTag_mono (b.length + 3) ((b ++ e).length + 3)
    (by simp only [List.length_append]; omega) (b ++ e) hne
  simp only [readNbtFile, hmono, hext, RRes.bind_ok, h2]

/- Lookup lemmas for the association-list model of the decoded compound map. -/

theorem hmLookup_hmInsert (m : List (Bytes × NBTTag)) (k : Bytes) (v : NBTTag) (k2 : Bytes) :
    hmLookup (hmInsert m k v) k2 = if k = k2 then some v else hmLookup m k2 := by
  induction m with
  | nil => rfl
  | cons p rest IH =>
    obtain ⟨k1, v1⟩ := p
    by_cases h1 : k1 = k
    · subst h1
      by_cases h2 : k1 = k2 <;> simp [hmInsert, hmLookup, h2]
    · by_cases h2 : k1 = k2
      · subst h2
        have hkne : ¬k = k1 := fun h => h1 h.symm
        simp [hmInsert, h1, hmLookup, hkne]
      · simp [hmInsert, hmLookup, h1, h2, IH]

theorem hmLookup_foldl (l : List (Bytes × NBTTag)) :
    ∀ (m : List (Bytes × NBTTag)) (k : Bytes),
      hmLookup (l.foldl (fun m p => hmInsert m p.1 p.2) m) k =
        (match lastOcc l k with
         | some v => some v
         | none => hmLookup m k) := by
  induction l with
  | nil => intro m k; rfl
  | cons p l IH =>
    intro m k
    simp only [List.foldl_cons, IH]
    cases hlo : lastOcc l k with
    | some v => simp [lastOcc, hlo]
    | none =>
      simp only [lastOcc, hlo, hmLookup_hmInsert]
      by_cases hk : p.1 = k <;> simp [hk]

/-- The decoded compound map binds each name to the value of the last entry of
that name in stream order. -/
theorem hmLookup_tupleVectorToHashMap (l : List (Bytes × NBTTag)) (k : Bytes) :
    hmLookup (tupleVectorToHashMap l) k = lastOcc l k := by
  rw [tupleVectorToHashMap, hmLookup_foldl l [] k]
  cases lastOcc l k <;> rfl

/- Lemmas about the declared-count handling of the array and list payloads. -/

theorem toSigned32_range (n : Nat) : -(2 ^ 31) ≤ toSigned 32 n ∧ toSigned 32 n < 2 ^ 31 := by
  simp only [toSigned]
  have hm : n % 2 ^ 32 < 2 ^ 32 := Nat.mod_lt _ (by norm_num)
  split <;> rename_i hcase <;> constructor <;> push_cast <;> omega

theorem beI32P_range {i r : Bytes} {v : Int} (h : beI32P i = .ok r v) :
    -(2 ^ 31) ≤ v ∧ v < 2 ^ 31 := by
  rcases i with _ | ⟨a, _ | ⟨b, _ | ⟨c, _ | ⟨d, rr⟩⟩⟩⟩ <;> cases h
  exact toSigned32_range _

theorem asUsize_of_neg {v : Int} (h1 : -(2 ^ 31) ≤ v) (h2 : v < 0) :
    2 ^ 64 - 2 ^ 31 ≤ asUsize v := by
  simp only [asUsize]
  omega

theorem asUsize_zero : asUsize 0 = 0 := rfl

theorem manyMNLoop_fixedw {α : Type} {sub : Bytes → RRes α} {w : Nat} (hw : 0 < w)
    (hchar : ∀ j : Bytes, (j.length < w ∧ sub j = .incomplete) ∨
      (∃ r v, sub j = .ok r v ∧ r.length + w = j.length)) :
    ∀ (n : Nat) (j : Bytes) (acc : List α), j.length < n * w →
      manyMNLoop sub n j acc = .subInc := by
  intro n
  induction n with
  | zero => intro j acc hj; omega
  | succ m IH =>
    intro j acc hj
    rcases hchar j with ⟨hshort, hs⟩ | ⟨r, v, hs, hlen⟩
    · simp only [manyMNLoop, hs]
    · have hmul : (m + 1) * w = m * w + w := by ring
      have hne : ¬r.length = j.length := by omega
      simp only [manyMNLoop, hs, if_neg hne]
      exact IH r (acc ++ [v]) (by omega)

theorem manyMN_fixedw_incomplete {α : Type} {sub : Bytes → RRes α} {w : Nat} (hw : 0 < w)
    (hchar : ∀ j : Bytes, (j.length < w ∧ sub j = .incomplete) ∨
      (∃ r v, sub j = .ok r v ∧ r.length + w = j.length))
    (n : Nat) (i : Bytes) (hn : i.length < n * w) :
    manyMN 1 n sub i = .incomplete := by
  rw [manyMN, manyMNLoop_fixedw hw hchar n i [] hn]

theorem manyMN_zero_incomplete {α : Type} (sub : Bytes → RRes α) (i : Bytes) :
    manyMN 1 0 sub i = .incomplete := rfl

theorem beI8P_char : ∀ j : Bytes, (j.length < 1 ∧ beI8P j = .incomplete) ∨
    (∃ r v, beI8P j = .ok r v ∧ r.length + 1 = j.length) := by
  rintro (_ | ⟨a, r⟩)
  · exact Or.inl ⟨by simp, rfl⟩
  · exact Or.inr ⟨r, toSigned 8 a, rfl, by simp⟩

theorem beI32P_char : ∀ j : Bytes, (j.length < 4 ∧ beI32P j = .incomplete) ∨
    (∃ r v, beI32P j = .ok r v ∧ r.length + 4 = j.length) := by
  rintro (_ | ⟨a, _ | ⟨b, _ | ⟨c, _ | ⟨d, r⟩⟩⟩⟩)
  · exact Or.inl ⟨by simp, rfl⟩
  · exact Or.inl ⟨by simp, rfl⟩
  · exact Or.inl ⟨by simp, rfl⟩
  · exact Or.inl ⟨by simp, rfl⟩
  · exact Or.inr ⟨r, _, rfl, by simp [List.length_cons]⟩

theorem beI64P_char : ∀ j : Bytes, (j.length < 8 ∧ beI64P j = .incomplete) ∨
    (∃ r v, beI64P j = .ok r v ∧ r.length + 8 = j.length) := by
  rintro (_ | ⟨a, _ | ⟨b, _ | ⟨c, _ | ⟨d, _ | ⟨e, _ | ⟨f, _ | ⟨g, _ | ⟨h0, r⟩⟩⟩⟩⟩⟩⟩⟩) <;>
    first
    | exact Or.inr ⟨r, _, rfl, by simp [List.length_cons]⟩
    | exact Or.inl ⟨by simp, rfl⟩

/- ----------------------------------------------------------------------------
   Claim theorems. -/

/-- C1: the claim states that decoding the encoding of any Document that
satisfies the section 3 invariants yields the Document back. The code spoils
this for every Document containing a List: write_tag_list builds its output but
never returns it, falling through to the error arm, so NBTFile::as_bytes fails
on the valid document with root name "" and root Compound mapping "a" to the
non-empty list [Byte 1]; no byte sequence is produced that decode could read
back. This theorem evaluates the encoder at that failing input. -/
theorem C1_encode_error_on_list_document :
    NBTFile.as_bytes ⟨[], .TagCompound [([0x61], .TagList [.TagByte 1])]⟩ =
      .error "Tag is not of type TagList" := by
  simp [NBTFile.as_bytes, writeTag, writeTagCompound, writeCompoundEntries, writeTagList,
    writeListElems, writeTagByte, getTagId, Except.map]

/-- C2: the claim states write_tag succeeds on every Tag satisfying the
section 3 invariants, in particular on every non-empty List. The code disagrees:
write_tag on the valid non-empty list [Byte 1] returns the error string of
write_tag_list, whose missing return makes every list encoding fail. This
theorem evaluates the encoder at that failing input. -/
theorem C2_write_tag_errors_on_valid_list :
    writeTag (.TagList [.TagByte 1]) false false none =
      .error "Tag is not of type TagList" := by
  simp [writeTag, writeTagList, writeListElems, writeTagByte, getTagId, Except.map]

/-- C3: the claim states that invalid UTF-8 in a name or String payload is
reported to the immediate caller as a typed Malformed-text error. The code
instead calls str::from_utf8(...).unwrap(), which panics: on the framing
bytes 0x00 0x01 0xFF (length 1, byte 0xFF) both read_tag_name and
read_tag_string panic, and a document whose root name holds the byte 0xFF
makes read_nbt_file panic instead of returning an error result. -/
theorem C3_invalid_utf8_panics :
    readTagName [0x00, 0x01, 0xFF] = .panicked ∧
    readTagStringP [0x00, 0x01, 0xFF] = .panicked ∧
    readNbtFile [0x0A, 0x00, 0x01, 0xFF] = .panicked :=
  ⟨rfl, rfl, rfl⟩

/-- C4: for every byte sequence b that decodes to a Document consuming all of b,
every strict prefix of b (b with at least one byte removed from the end) fails
to decode with nom Err::Incomplete, the Truncation error; it never succeeds
with a silently shortened result, never panics, and never reports a different
error kind. -/
theorem C4_truncation_incomplete (b p q : Bytes) (fl : NBTFile)
    (hb : readNbtFile b = .ok [] (some fl)) (hpq : b = p ++ q) (hq : q ≠ []) :
    readNbtFile p = .incomplete :=
  readNbtFile_strict_pre_incomplete hb hpq hq

/-- C4 witness: truncating the 20-byte test document by its final byte yields
Incomplete. -/
theorem C4_truncation_incomplete_witness :
    readNbtFile [0x0A, 0x00, 0x01, 0x65, 0x08, 0x00, 0x05, 0x48, 0x65, 0x6C, 0x6C, 0x6F,
      0x00, 0x05, 0x48, 0x65, 0x6C, 0x6C, 0x6F] = .incomplete :=
  C4_truncation_incomplete
    [0x0A, 0x00, 0x01, 0x65, 0x08, 0x00, 0x05, 0x48, 0x65, 0x6C, 0x6C, 0x6F,
      0x00, 0x05, 0x48, 0x65, 0x6C, 0x6C, 0x6F, 0x00]
    [0x0A, 0x00, 0x01, 0x65, 0x08, 0x00, 0x05, 0x48, 0x65, 0x6C, 0x6C, 0x6F,
      0x00, 0x05, 0x48, 0x65, 0x6C, 0x6C, 0x6F]
    [0x00]
    ⟨[0x65], .TagCompound [([0x48, 0x65, 0x6C, 0x6C, 0x6F], .TagString [0x48, 0x65, 0x6C, 0x6C, 0x6F])]⟩
    rfl rfl (by simp)

/-- C5 counterexample: the claim states that a List payload with a declared
count of 0 or negative always fails to decode. Here a List payload declares
the count -1 (bytes FF FF FF FF, as the first conjunct shows) and decodes
successfully: the cast len as usize turns -1 into a huge bound, the element
loop parses one element, and the next element attempt fails with an error,
which many_m_n with one item already parsed converts into success. -/
theorem C5_negative_list_count_decodes :
    beI32P [0xFF, 0xFF, 0xFF, 0xFF] = .ok [] (-1) ∧
    readTagKnown 20 9
      [0x09, 0xFF, 0xFF, 0xFF, 0xFF, 0x01, 0x00, 0x00, 0x00, 0x01, 0x07,
       0x00, 0x01, 0x00, 0x00, 0x00] =
      .ok [0x00, 0x01, 0x00, 0x00, 0x00] (.TagList [.TagList [.TagByte 7]]) :=
  ⟨rfl, rfl⟩

/-- C5 amended: decoding a ByteArray, IntArray or LongArray payload whose
declared big-endian signed 32-bit count is 0 or negative fails (with
Err::Incomplete) for every input a Rust slice can present, and so does a List
payload with declared count 0; only a List payload with a negative declared
count can decode successfully. -/
theorem C5_nonpositive_count_fails_amended :
    (∀ (i r : Bytes) (len : Int), beI32P i = .ok r len → len ≤ 0 → i.length < 2 ^ 62 →
      readTagByteArrayP i = .incomplete) ∧
    (∀ (i r : Bytes) (len : Int), beI32P i = .ok r len → len ≤ 0 → i.length < 2 ^ 62 →
      readTagIntArrayP i = .incomplete) ∧
    (∀ (i r : Bytes) (len : Int), beI32P i = .ok r len → len ≤ 0 → i.length < 2 ^ 62 →
      readTagLongArrayP i = .incomplete) ∧
    (∀ (g et : Nat) (rest : Bytes),
      readTagKnown (g + 1) 9 (et :: 0 :: 0 :: 0 :: 0 :: rest) = .incomplete) := by
  have harr : ∀ {w : Nat}, 0 < w →
      ∀ (sub : Bytes → RRes Int),
      (∀ j : Bytes, (j.length < w ∧ sub j = .incomplete) ∨
        (∃ r v, sub j = .ok r v ∧ r.length + w = j.length)) →
      ∀ (i r : Bytes) (len : Int), beI32P i = .ok r len → len ≤ 0 → i.length < 2 ^ 62 →
      manyMN 1 (asUsize len) sub r = .incomplete := by
    intro w hw sub hchar i r len hp hle hb
    rcases lt_or_eq_of_le hle with hlt | heq
    · have hrange := beI32P_range hp
      have hbig := asUsize_of_neg hrange.1 hlt
      have hr : r.length ≤ i.length := pcons_beI32P i r len hp
      have hmul : asUsize len ≤ asUsize len * w := Nat.le_mul_of_pos_right _ hw
      have hc : (2 : Nat) ^ 62 < 2 ^ 64 - 2 ^ 31 := by norm_num
      exact manyMN_fixedw_incomplete hw hchar (asUsize len) r (by omega)
    · subst heq
      exact manyMN_zero_incomplete sub r
  refine ⟨?_, ?_, ?_, ?_⟩
  · intro i r len hp hle hb
    simp only [readTagByteArrayP, hp, RRes.bind_ok,
      harr (by norm_num) beI8P beI8P_char i r len hp hle hb, RRes.bind_incomplete]
  · intro i r len hp hle hb
    simp only [readTagIntArrayP, hp, RRes.bind_ok,
      harr (by norm_num) beI32P beI32P_char i r len hp hle hb, RRes.bind_incomplete]
  · intro i r len hp hle hb
    simp only [readTagLongArrayP, hp, RRes.bind_ok,
      harr (by norm_num) beI64P beI64P_char i r len hp hle hb, RRes.bind_incomplete]
  · intro g et rest
    rfl

/-- C5 witness: the amended statement applied to arrays declaring count -1 on
empty remainders and to a List payload declaring count 0. -/
theorem C5_nonpositive_count_fails_witness :
    readTagByteArrayP [0xFF, 0xFF, 0xFF, 0xFF] = .incomplete ∧
    readTagIntArrayP [0xFF, 0xFF, 0xFF, 0xFF] = .incomplete ∧
    readTagLongArrayP [0xFF, 0xFF, 0xFF, 0xFF] = .incomplete ∧
    readTagKnown 1 9 [0x05, 0x00, 0x00, 0x00, 0x00] = .incomplete :=
  ⟨C5_nonpositive_count_fails_amended.1 [0xFF, 0xFF, 0xFF, 0xFF] [] (-1) (by rfl) (by norm_num)
      (by norm_num),
   C5_nonpositive_count_fails_amended.2.1 [0xFF, 0xFF, 0xFF, 0xFF] [] (-1) (by rfl) (by norm_num)
      (by norm_num),
   C5_nonpositive_count_fails_amended.2.2.1 [0xFF, 0xFF, 0xFF, 0xFF] [] (-1) (by rfl) (by norm_num)
      (by norm_num),
   C5_nonpositive_count_fails_amended.2.2.2 0 5 []⟩

/-- C6: a well-formed top-level parse whose payload is not a Compound yields no
document: read_nbt_file returns None for it, NBTFile::from_bytes returns the
error string, and conversely every document produced by read_nbt_file has a
Compound root. -/
theorem C6_root_must_be_compound :
    (∀ (bs r nm : Bytes) (t : NBTTag), readTag (bs.length + 3) bs = .ok r (nm, t) →
      (∀ m, t ≠ .TagCompound m) →
      readNbtFile bs = .ok r none ∧ NBTFile.from_bytes bs = .err "File could not be read") ∧
    (∀ (bs r : Bytes) (fl : NBTFile), readNbtFile bs = .ok r (some fl) →
      ∃ m, fl.root = .TagCompound m) := by
  constructor
  · intro bs r nm t h hne
    have hnone : fileFromTuple nm t = none := by
      cases t <;> first | rfl | exact absurd rfl (hne _)
    have hfile : readNbtFile bs = .ok r none := by
      simp only [readNbtFile, h, RRes.bind_ok, hnone]
    exact ⟨hfile, by simp only [NBTFile.from_bytes, hfile]⟩
  · intro bs r fl h
    rcases readNbtFile_ok_inv h with ⟨⟨nm, t⟩, h1, h2⟩
    cases t with
    | TagCompound m =>
      simp only [fileFromTuple, Option.some.injEq] at h2
      exact ⟨m, by rw [← h2]⟩
    | TagEnd => simp [fileFromTuple] at h2
    | TagByte v => simp [fileFromTuple] at h2
    | TagShort v => simp [fileFromTuple] at h2
    | TagInt v => simp [fileFromTuple] at h2
    | TagLong v => simp [fileFromTuple] at h2
    | TagFloat v => simp [fileFromTuple] at h2
    | TagDouble v => simp [fileFromTuple] at h2
    | TagByteArray v => simp [fileFromTuple] at h2
    | TagString v => simp [fileFromTuple] at h2
    | TagList v => simp [fileFromTuple] at h2
    | TagIntArray v => simp [fileFromTuple] at h2
    | TagLongArray v => simp [fileFromTuple] at h2

/-- C6 witness: a well-formed top-level Byte payload parses but yields no
document and an error from from_bytes. -/
theorem C6_root_must_be_compound_witness :
    readNbtFile [0x01, 0x00, 0x00, 0x07] = .ok [] none ∧
    NBTFile.from_bytes [0x01, 0x00, 0x00, 0x07] = .err "File could not be read" :=
  C6_root_must_be_compound.1 [0x01, 0x00, 0x00, 0x07] [] [] (.TagByte 7) rfl
    (fun _ h => nomatch h)

/-- When the byte length of a name is a nonzero multiple of 65536, the name
step of write_tag emits a zero length prefix, so decoding the emitted framing
returns the empty name and leaves the whole name as unconsumed input. -/
theorem readTagName_wrapped (s : Bytes) (h0 : s.length ≠ 0) (hm : s.length % 2 ^ 16 = 0) :
    readTagName (writeNameBytes s) = .ok s [] := by
  have hbytes : writeNameBytes s = 0 :: 0 :: s := by
    simp only [writeNameBytes, if_neg h0, hm, be16W]
    norm_num
  rw [hbytes]
  simp only [readTagName, beU16P, RRes.bind_ok, Nat.zero_mul, Nat.add_zero, takeP,
    Nat.zero_le, if_true, List.take_zero, List.drop_zero]
  rfl

/-- C7 counterexample: the claim states decode_name(encode_name(s)) = s for
every UTF-8 string s. For the 65536-byte ASCII string of letters a, the
encoder writes the byte length cast to u16, which wraps to 0, so decoding the
name framing returns the empty name (with all 65536 bytes left over), not s. -/
theorem C7_name_roundtrip_counterexample :
    readTagName (writeNameBytes (List.replicate 65536 97)) =
      .ok (List.replicate 65536 97) [] ∧
    (List.replicate 65536 97 : Bytes) ≠ [] := by
  have hlen : (List.replicate 65536 97 : Bytes).length = 65536 :=
    List.length_replicate 65536 97
  constructor
  · exact readTagName_wrapped (List.replicate 65536 97) (by rw [hlen]; norm_num)
      (by rw [hlen]; norm_num)
  · intro h
    have h2 := congrArg List.length h
    rw [hlen] at h2
    exact absurd h2 (by norm_num)

/-- C7 amended: for every UTF-8 string whose byte length is below 65536,
decoding the name framing emitted by the name step of write_tag returns exactly
that string with no input left over. -/
theorem C7_name_roundtrip_amended (s : Bytes) (hu : utf8Valid s = true)
    (hl : s.length < 2 ^ 16) :
    readTagName (writeNameBytes s) = .ok [] s := by
  have hmod : s.length % 2 ^ 16 = s.length := Nat.mod_eq_of_lt hl
  have hl2 : s.length < 65536 := by simpa using hl
  have hmod2 : s.length % 65536 = s.length := Nat.mod_eq_of_lt hl2
  have hbytes : writeNameBytes s = (s.length / 256 % 256) :: (s.length % 256) :: s := by
    by_cases hz : s.length = 0
    · simp [writeNameBytes, hz, be16W]
    · simp [writeNameBytes, hz, be16W, hmod, hmod2]
  rw [hbytes]
  simp only [readTagName, beU16P, RRes.bind_ok]
  have hv : s.length / 256 % 256 * 256 + s.length % 256 = s.length := by omega
  rw [hv]
  simp [takeP, hu]

/-- C7 witness: the amended round trip at the two-byte ASCII name hi. -/
theorem C7_name_roundtrip_witness :
    utf8Valid [104, 105] = true ∧ [104, 105].length < 2 ^ 16 ∧
    readTagName (writeNameBytes [104, 105]) = .ok [] [104, 105] :=
  ⟨by decide, by decide, C7_name_roundtrip_amended [104, 105] (by decide) (by decide)⟩

/-- C8 counterexample: the claim states that every input with a type-id byte
outside 1 to 12 at a value position makes the decode fail with the
Unknown-type-id error. That is false at nested value positions: a 0x0D at a
compound-entry value position fails with the re-kinded ManyTill error of
many_till (first conjunct); a 0x0D at the element-type position of a list
declaring one element fails with the re-kinded ManyMN error of many_m_n
(second conjunct); and a 0x0D at the element-type position of an inner list
inside a list whose declared count is -1 raises Custom(0) only transiently:
many_m_n swallows the element error after its first parsed element and the
decode succeeds outright (third conjunct). -/
theorem C8_unknown_type_id_counterexample :
    readNbtFile [0x0A, 0x00, 0x00, 0x0D, 0x00, 0x00, 0x00] = .err .manyTill ∧
    readTagKnown 20 9 [0x0D, 0x00, 0x00, 0x00, 0x01, 0x00] = .err .manyMN ∧
    readTagKnown 20 9 [0x09, 0xFF, 0xFF, 0xFF, 0xFF, 0x01, 0x00, 0x00, 0x00, 0x01, 0x07,
        0x0D, 0x01, 0x00, 0x00, 0x00] =
      .ok [0x0D, 0x01, 0x00, 0x00, 0x00] (.TagList [.TagList [.TagByte 7]]) :=
  ⟨rfl, rfl, rfl⟩

/-- C8 amended: read_tag_known, the dispatch invoked wherever a value with a
known type id is expected, fails with the Unknown-type-id error
ErrorKind::Custom(0) for every type-id byte outside 1 to 12 on every input,
and a document whose root value position carries the type id 0x0D fails to
decode with that same error; at nested value positions the enclosing
combinators re-kind or can even swallow the error. -/
theorem C8_unknown_type_id :
    (∀ (f t : Nat) (bs : Bytes), 0 < f → (t = 0 ∨ 13 ≤ t) →
      readTagKnown f t bs = .err .custom0) ∧
    readNbtFile [0x0D, 0x00, 0x00] = .err .custom0 := by
  constructor
  · intro f t bs hf ht
    rcases f with _ | g
    · exact absurd hf (Nat.lt_irrefl 0)
    rcases t with _ | _ | _ | _ | _ | _ | _ | _ | _ | _ | _ | _ | _ | t2
    · rfl
    · rcases ht with h | h <;> exact absurd h (by omega)
    · rcases ht with h | h <;> exact absurd h (by omega)
    · rcases ht with h | h <;> exact absurd h (by omega)
    · rcases ht with h | h <;> exact absurd h (by omega)
    · rcases ht with h | h <;> exact absurd h (by omega)
    · rcases ht with h | h <;> exact absurd h (by omega)
    · rcases ht with h | h <;> exact absurd h (by omega)
    · rcases ht with h | h <;> exact absurd h (by omega)
    · rcases ht with h | h <;> exact absurd h (by omega)
    · rcases ht with h | h <;> exact absurd h (by omega)
    · rcases ht with h | h <;> exact absurd h (by omega)
    · rcases ht with h | h <;> exact absurd h (by omega)
    · rfl
  · rfl

/-- C8 witness: the dispatch at type id 13 on empty input. -/
theorem C8_unknown_type_id_witness :
    0 < 1 ∧ readTagKnown 1 13 [] = .err .custom0 :=
  ⟨by decide, C8_unknown_type_id.1 1 13 [] (by decide) (by decide)⟩

/-- C9: for every decoded entry vector, the map built by
tuple_vector_to_hash_map binds each name to the value of the last entry with
that name in stream order, and a concrete document with two entries named a
decodes without error to the map binding a to the second value. -/
theorem C9_duplicate_keys_last_wins :
    (∀ (l : List (Bytes × NBTTag)) (k : Bytes),
      hmLookup (tupleVectorToHashMap l) k = lastOcc l k) ∧
    readNbtFile [0x0A, 0x00, 0x00, 0x01, 0x00, 0x01, 0x61, 0x01,
        0x01, 0x00, 0x01, 0x61, 0x02, 0x00] =
      .ok [] (some ⟨[], .TagCompound [([0x61], .TagByte 2)]⟩) :=
  ⟨hmLookup_tupleVectorToHashMap, rfl⟩

/-- C10: NBTFile::from_bytes succeeds on any input consisting of a complete
well-formed document followed by arbitrary trailing bytes: the document is
returned, the trailing bytes are the unconsumed rest of the parse and are
silently discarded. -/
theorem C10_trailing_bytes_ignored (b e : Bytes) (fl : NBTFile)
    (hb : readNbtFile b = .ok [] (some fl)) :
    NBTFile.from_bytes (b ++ e) = .ok fl ∧ readNbtFile (b ++ e) = .ok e (some fl) := by
  have h := readNbtFile_append (e := e) hb
  exact ⟨by simp only [NBTFile.from_bytes, h], h⟩

/-- C10 witness: the test document with two trailing bytes appended. -/
theorem C10_trailing_bytes_ignored_witness :
    NBTFile.from_bytes ([0x0A, 0x00, 0x01, 0x65, 0x08, 0x00, 0x05, 0x48, 0x65, 0x6C, 0x6C,
        0x6F, 0x00, 0x05, 0x48, 0x65, 0x6C, 0x6C, 0x6F, 0x00] ++ [0xDE, 0xAD]) =
      .ok ⟨[0x65], .TagCompound [([0x48, 0x65, 0x6C, 0x6C, 0x6F],
        .TagString [0x48, 0x65, 0x6C, 0x6C, 0x6F])]⟩ :=
  (C10_trailing_bytes_ignored
    [0x0A, 0x00, 0x01, 0x65, 0x08, 0x00, 0x05, 0x48, 0x65, 0x6C, 0x6C, 0x6F,
      0x00, 0x05, 0x48, 0x65, 0x6C, 0x6C, 0x6F, 0x00]
    [0xDE, 0xAD]
    ⟨[0x65], .TagCompound [([0x48, 0x65, 0x6C, 0x6C, 0x6F], .TagString [0x48, 0x65, 0x6C, 0x6C, 0x6F])]⟩
    rfl).1
